import Mathlib

/-!
Shallow embedding of the news collection and keyword-extraction pipeline of the
`NewsService` class (TypeScript).  Text is modelled as `List Char` / `String`
(Unicode code points; the sources handled are BMP-only, where JS UTF-16 code
units and code points coincide).  JS regular-expression operations are embedded
as direct scanners whose semantics follow the concrete regex literals of the
source, including greediness and global-match restart behaviour.  Host-provided
primitives (the `Date` parser/formatter and the DOM entity decoder) are either
function parameters or modelled from the spec, as noted at each definition.
-/

namespace News

/-- JS falsy-`||` on strings: `a || b`, where only the empty string is falsy. -/
def jsOr (a b : String) : String := if a = "" then b else a

/-- Whitespace per the JS `\s` class / `String.prototype.trim` (common members). -/
def isJsSpace (c : Char) : Bool :=
  c = ' ' || c = '\t' || c = '\n' || c = '\r' ||
  c.toNat = 0x0b || c.toNat = 0x0c || c.toNat = 0xa0 || c.toNat = 0xfeff

/-- JS regex `\w` (ASCII letters, digits, underscore). -/
def isWordChar (c : Char) : Bool := c.isAlpha || c.isDigit || c = '_'

/-- The `가-힣` class: precomposed Hangul syllables. -/
def isHangul (c : Char) : Bool := 0xac00 ≤ c.toNat && c.toNat ≤ 0xd7a3

/-- `String.prototype.trim` on a character list. -/
def jsTrimL (l : List Char) : List Char :=
  ((l.dropWhile isJsSpace).reverse.dropWhile isJsSpace).reverse

/-- `String.prototype.trim`. -/
def jsTrim (s : String) : String := ⟨jsTrimL s.toList⟩

/-- Contiguous-subsequence test on character lists (JS `String.prototype.includes`). -/
def listContainsSeq (pat : List Char) : List Char → Bool
  | [] => pat.isEmpty
  | c :: cs => pat.isPrefixOf (c :: cs) || listContainsSeq pat cs

/-- `s.includes(pat)`. -/
def containsStr (s pat : String) : Bool := listContainsSeq pat.toList s.toList

/-- JS `s.startsWith(p)` (list-level prefix test). -/
def strStartsWith (s p : String) : Bool := p.toList.isPrefixOf s.toList

/-- `String.prototype.toLowerCase`, character-wise (identical to the host behaviour
on ASCII; Hangul has no case). -/
def strToLower (s : String) : String := ⟨s.toList.map Char.toLower⟩

/-- `String.prototype.substring(0, n)`. -/
def strTake (s : String) (n : Nat) : String := ⟨s.toList.take n⟩

/-- Lexicographic character-sequence comparison (the default `Array.prototype.sort`
string order). -/
def listLexLt : List Char → List Char → Bool
  | [], [] => false
  | [], _ :: _ => true
  | _ :: _, [] => false
  | a :: as, b :: bs => if a < b then true else if b < a then false else listLexLt as bs

def strLt (a b : String) : Bool := listLexLt a.toList b.toList

/-- JS `.` (dot) in a regex without the `s` flag: any char except a line terminator. -/
def jsDotMatches (c : Char) : Bool :=
  !(c = '\n' || c = '\r' || c.toNat = 0x2028 || c.toNat = 0x2029)

/-- One pattern character of a keyword-derived regex: `.` is a wildcard, the rest
(letters, digits, spaces, `&`, `/`) are literals. -/
def patCharMatches (p c : Char) : Bool := if p = '.' then jsDotMatches c else p = c

/-- Does the (fixed-length) pattern match at the head of `s`? -/
def patMatchesAt : List Char → List Char → Bool
  | [], _ => true
  | _ :: _, [] => false
  | p :: ps, c :: cs => patCharMatches p c && patMatchesAt ps cs

/-- Count non-overlapping, leftmost-first matches of a nonempty fixed-length pattern,
continuing after each match (`RegExp` with the `g` flag advancing `lastIndex`).
Fuel is the input length: every step consumes at least one character. -/
def countPatMatchesAux (pat : List Char) : Nat → List Char → Nat
  | 0, _ => 0
  | _, [] => 0
  | fuel + 1, c :: cs =>
    if patMatchesAt pat (c :: cs) then 1 + countPatMatchesAux pat fuel (cs.drop (pat.length - 1))
    else countPatMatchesAux pat fuel cs

/-- `(textLower.match(new RegExp(keywordLower, "g")) || []).length`: the lowered
keyword is compiled as a regex, so `.` inside it matches any non-line-terminator;
an empty pattern matches at every position (JS yields `length + 1` empty matches). -/
def countRegexMatches (pat text : List Char) : Nat :=
  if pat.isEmpty then text.length + 1 else countPatMatchesAux pat text.length text

/-- Non-overlapping literal (regex-metacharacter-free) occurrence count, same
global-match discipline as `countRegexMatches`. -/
def countLiteralMatchesAux (pat : List Char) : Nat → List Char → Nat
  | 0, _ => 0
  | _, [] => 0
  | fuel + 1, c :: cs =>
    if pat.isPrefixOf (c :: cs) then 1 + countLiteralMatchesAux pat fuel (cs.drop (pat.length - 1))
    else countLiteralMatchesAux pat fuel cs

/-- Literal occurrence count with the JS empty-pattern convention. -/
def countLiteralMatches (pat text : List Char) : Nat :=
  if pat.isEmpty then text.length + 1 else countLiteralMatchesAux pat text.length text

/-- Global replace of the regex `<[^>]*>` by `repl`: at `<`, the greedy `[^>]*` runs to
the first `>`; if no `>` follows, no match starts at this `<` and scanning advances. -/
def replaceTagsAux (repl : List Char) : Nat → List Char → List Char
  | 0, l => l
  | _, [] => []
  | fuel + 1, c :: cs =>
    if c = '<' then
      let inner := cs.takeWhile (fun d => d ≠ '>')
      if inner.length < cs.length then repl ++ replaceTagsAux repl fuel (cs.drop (inner.length + 1))
      else c :: replaceTagsAux repl fuel cs
    else c :: replaceTagsAux repl fuel cs

def replaceTags (repl : List Char) (l : List Char) : List Char := replaceTagsAux repl l.length l

/-- Global replace of the regex `&[^;]+;` by `repl` (at least one non-`;` char needed
between `&` and the closing `;`). -/
def replaceEntitiesAux (repl : List Char) : Nat → List Char → List Char
  | 0, l => l
  | _, [] => []
  | fuel + 1, c :: cs =>
    if c = '&' then
      let inner := cs.takeWhile (fun d => d ≠ ';')
      if 0 < inner.length ∧ inner.length < cs.length then
        repl ++ replaceEntitiesAux repl fuel (cs.drop (inner.length + 1))
      else c :: replaceEntitiesAux repl fuel cs
    else c :: replaceEntitiesAux repl fuel cs

def replaceEntities (repl : List Char) (l : List Char) : List Char :=
  replaceEntitiesAux repl l.length l

/-- Global replace of `\s+` by a single space. -/
def collapseSpacesAux : Nat → List Char → List Char
  | 0, l => l
  | _, [] => []
  | fuel + 1, c :: cs =>
    if isJsSpace c then ' ' :: collapseSpacesAux fuel (cs.dropWhile isJsSpace)
    else c :: collapseSpacesAux fuel cs

def collapseSpaces (l : List Char) : List Char := collapseSpacesAux l.length l

/-- `cleanTitle`: entities to spaces, tags removed, whitespace collapsed, trimmed,
truncated to 200 characters. -/
def cleanTitle (title : String) : String :=
  ⟨(jsTrimL (collapseSpaces (replaceTags [] (replaceEntities [' '] title.toList)))).take 200⟩

/-- Sentence-splitting class `[.!?]` of `cleanSummary`. -/
def isSentenceEnd (c : Char) : Bool := c = '.' || c = '!' || c = '?'

/-- `text.split(/[.!?]/)` (JS split: empty segments are kept, `"".split` gives one
empty segment). -/
def splitSentences : List Char → List (List Char)
  | [] => [[]]
  | c :: cs =>
    if isSentenceEnd c then [] :: splitSentences cs
    else
      match splitSentences cs with
      | s :: ss => (c :: s) :: ss
      | [] => [[c]]

/-- `Array.prototype.join(". ")` on sentence fragments. -/
def joinDotSpace : List (List Char) → List Char
  | [] => []
  | [s] => s
  | s :: rest => s ++ '.' :: ' ' :: joinDotSpace rest

/-- `cleanSummary`: strip tags, replace entities by spaces, keep the first two
sentences whose trimmed length exceeds 10, join with ". ", truncate to 200
characters and append an ellipsis. -/
def cleanSummary (html : String) : String :=
  let text := replaceEntities [' '] (replaceTags [] html.toList)
  let sentences := (splitSentences text).filter (fun s => 10 < (jsTrimL s).length)
  ⟨(joinDotSpace (sentences.take 2)).take 200 ++ "...".toList⟩

/-- The curated bilingual technology-term dictionary of `extractKeywords`. -/
def techKeywords : List String :=
  [ "AI", "인공지능", "Machine Learning", "머신러닝", "Deep Learning", "딥러닝",
    "ChatGPT", "GPT", "LLM", "생성형AI", "Generative AI", "신경망", "Neural Network",
    "반도체", "Semiconductor", "메모리", "Memory", "DRAM", "NAND", "HBM",
    "GPU", "CPU", "NPU", "TPU", "FPGA", "ASIC", "칩셋", "Chipset",
    "삼성전자", "Samsung", "SK하이닉스", "TSMC", "엔비디아", "NVIDIA",
    "5G", "6G", "LTE", "와이파이", "WiFi", "블루투스", "Bluetooth",
    "클라우드", "Cloud", "데이터센터", "Data Center", "서버", "Server",
    "네트워크", "Network", "CDN", "API", "SDK",
    "블록체인", "Blockchain", "암호화폐", "Cryptocurrency", "Bitcoin", "비트코인",
    "Ethereum", "이더리움", "NFT", "DeFi", "메타버스", "Metaverse",
    "자율주행", "Autonomous", "전기차", "Electric Vehicle", "EV", "Tesla", "테슬라",
    "배터리", "Battery", "리튬", "Lithium", "수소", "Hydrogen",
    "스타트업", "Startup", "유니콘", "Unicorn", "투자", "Investment", "펀딩", "Funding",
    "IPO", "상장", "벤처캐피탈", "VC", "M&A", "Apple", "애플", "Google", "구글",
    "Microsoft", "마이크로소프트", "Meta", "메타", "Amazon", "아마존",
    "보안", "Security", "해킹", "Hacking", "사이버", "Cyber", "랜섬웨어", "Ransomware",
    "개인정보", "Privacy", "데이터보호", "GDPR", "제로트러스트", "Zero Trust",
    "오픈소스", "Open Source", "개발자", "Developer", "프로그래밍", "Programming",
    "Python", "JavaScript", "React", "Node.js", "Docker", "Kubernetes",
    "DevOps", "CI/CD", "마이크로서비스", "Microservices" ]

/-- The common-word stoplist of `isCommonWord`. -/
def commonWords : List String :=
  [ "The", "And", "For", "Are", "But", "Not", "You", "All", "Can", "Had", "Her",
    "Was", "One", "Our", "Out", "Day", "Has", "His", "How", "Man", "New", "Now",
    "Old", "See", "Two", "Way", "Who", "Boy", "Did", "Its", "Let", "Put", "Say",
    "She", "Too", "Use",
    "그는", "그의", "이는", "이를", "있는", "있다", "한다", "한국", "우리", "때문",
    "통해", "대한", "위해", "경우", "때문에", "이번", "지난", "올해", "내년" ]

/-- `isCommonWord`: stoplist membership or length below 2. -/
def isCommonWord (word : String) : Bool := commonWords.contains word || word.length < 2

/-- Dictionary pass: every dictionary entry whose lowercased form occurs in the
lowercased text is pushed once, in dictionary order. -/
def dictPass (textLower : String) : List String :=
  techKeywords.foldl
    (fun keywords keyword =>
      if containsStr textLower (strToLower keyword) && !(keywords.contains keyword) then
        keywords ++ [keyword]
      else keywords) []

/-- `[^\w가-힣\s]` replaced by spaces (each offending character becomes one space). -/
def replaceNonWord (l : List Char) : List Char :=
  l.map (fun c => if isWordChar c || isHangul c || isJsSpace c then c else ' ')

/-- Maximal runs of `\w` characters, in document order.  `cleanText` consists only of
`\w`, Hangul-syllable and whitespace characters, and Hangul is outside JS `\w`, so
regex word boundaries fall exactly at the edges of these runs. -/
def wordRunsAux : Nat → List Char → List (List Char)
  | 0, _ => []
  | _, [] => []
  | fuel + 1, c :: cs =>
    if isWordChar c then
      (c :: cs.takeWhile isWordChar) :: wordRunsAux fuel (cs.dropWhile isWordChar)
    else wordRunsAux fuel cs

def wordRuns (l : List Char) : List (List Char) := wordRunsAux l.length l

/-- `\b[A-Z]{2,5}\b`: a whole `\w`-run of 2 to 5 uppercase ASCII letters (a partial
run can never satisfy both boundaries, and a longer or mixed run never matches). -/
def isAcronymRun (w : List Char) : Bool :=
  2 ≤ w.length && w.length ≤ 5 && w.all (fun c => c.isUpper)

/-- `\b[A-Z][a-z]+(?:[A-Z][a-z]*)*\b`: a whole `\w`-run of ASCII letters starting
with an uppercase letter followed by a lowercase one (any such run decomposes
uniquely into CamelCase segments). -/
def isCamelRun (w : List Char) : Bool :=
  match w with
  | c0 :: c1 :: _ => w.all (fun c => c.isAlpha) && c0.isUpper && c1.isLower
  | _ => false

/-- `\b\d+[A-Za-z]{1,3}\b`: a whole `\w`-run of digits followed by 1 to 3 letters. -/
def isNumUnitRun (w : List Char) : Bool :=
  let ds := w.takeWhile (fun c => c.isDigit)
  let rest := w.drop ds.length
  0 < ds.length && 0 < rest.length && rest.length ≤ 3 && rest.all (fun c => c.isAlpha)

/-- The domain-suffix alternation `(?:기술|시스템|플랫폼|서비스|솔루션)` (distinct first
characters, so at most one branch can match at a position). -/
def hangulSuffixes : List (List Char) :=
  [ "기술".toList, "시스템".toList, "플랫폼".toList, "서비스".toList, "솔루션".toList ]

/-- Greedy `[가-힣]{2,6}` followed by a domain suffix, stem length tried from `k`
downwards (regex backtracking order). Returns the match and the remaining input. -/
def tryHangulStemAt (l : List Char) : Nat → Option (List Char × List Char)
  | 0 => none
  | k + 1 =>
    if k + 1 < 2 then none
    else
      let stem := l.take (k + 1)
      if stem.length = k + 1 && stem.all (fun c => isHangul c) then
        match hangulSuffixes.find? (fun sfx => sfx.isPrefixOf (l.drop (k + 1))) with
        | some sfx => some (stem ++ sfx, (l.drop (k + 1)).drop sfx.length)
        | none => tryHangulStemAt l k
      else tryHangulStemAt l k

/-- Global matches of `[가-힣]{2,6}(?:기술|시스템|플랫폼|서비스|솔루션)`: leftmost-first,
continuing after each match.  Fuel is the input length; every step consumes at
least one character, so the fuel never runs out before the input does. -/
def hangulTermMatchesAux : Nat → List Char → List (List Char)
  | 0, _ => []
  | _, [] => []
  | fuel + 1, c :: cs =>
    match tryHangulStemAt (c :: cs) 6 with
    | some (m, rest) => m :: hangulTermMatchesAux fuel rest
    | none => hangulTermMatchesAux fuel cs

def hangulTermMatches (l : List Char) : List (List Char) :=
  hangulTermMatchesAux l.length l

/-- Push one pattern-pass candidate: trim, require length at least 2, novelty and
absence from the stoplist. -/
def pushCandidate (keywords : List String) (w : String) : List String :=
  let trimmed := jsTrim w
  if 2 ≤ trimmed.length && !(keywords.contains trimmed) && !(isCommonWord trimmed) then
    keywords ++ [trimmed]
  else keywords

/-- Pattern pass: the four extraction patterns applied to `cleanText` in source
order (ALLCAPS acronyms, CamelCase tokens, Hangul domain-suffix terms,
digits+unit tokens), each match folded through `pushCandidate`. -/
def patternPass (cleanText : List Char) (keywords0 : List String) : List String :=
  let runs := wordRuns cleanText
  let p1 := (runs.filter isAcronymRun).map (fun w => (⟨w⟩ : String))
  let p2 := (runs.filter isCamelRun).map (fun w => (⟨w⟩ : String))
  let p3 := (hangulTermMatches cleanText).map (fun w => (⟨w⟩ : String))
  let p4 := (runs.filter isNumUnitRun).map (fun w => (⟨w⟩ : String))
  p4.foldl pushCandidate (p3.foldl pushCandidate (p2.foldl pushCandidate (p1.foldl pushCandidate keywords0)))

/-- First-occurrence deduplication with respect to a boolean relation, with the
`Array.prototype.filter`/`findIndex` semantics: an element is kept exactly when no
earlier element of the *original* list is related to it. -/
def dedupFirstAux {α : Type} (eq : α → α → Bool) (seen : List α) : List α → List α
  | [] => []
  | a :: rest =>
    if seen.any (fun s => eq s a) then dedupFirstAux eq (seen ++ [a]) rest
    else a :: dedupFirstAux eq (seen ++ [a]) rest

def dedupFirst {α : Type} (eq : α → α → Bool) (l : List α) : List α :=
  dedupFirstAux eq [] l

/-- `[...new Set(keywords)]`: first-occurrence deduplication. -/
def dedupStr (l : List String) : List String := dedupFirst (fun a b => a == b) l

/-- Stable insertion for `jsSort`: the new element (later in the original order) is
placed after every element strictly before it per `le`, and before ties. -/
def insertStable {α : Type} (le : α → α → Bool) (a : α) : List α → List α
  | [] => [a]
  | b :: bs => if le b a && !(le a b) then b :: insertStable le a bs else a :: b :: bs

/-- `Array.prototype.sort` with a total comparator: the stable sort ordered by `le`
("may come before").  A stable sort's output is uniquely determined by the
comparator and the input order, so this structural insertion sort coincides with
the host engine's stable sort. -/
def jsSort {α : Type} (le : α → α → Bool) : List α → List α
  | [] => []
  | x :: xs => insertStable le x (jsSort le xs)

/-- `calculateKeywordRelevance`: title-window bonus, regex occurrence count, length
bonus and tech-term bonus, summed. -/
def calculateKeywordRelevance (keyword text : String) : Nat :=
  let keywordLower := strToLower keyword
  let textLower := strToLower text
  let titleEnd := min text.length 100
  let titleScore := if containsStr (strToLower (strTake text titleEnd)) keywordLower then 3 else 0
  let occurrences := countRegexMatches keywordLower.toList textLower.toList
  let lengthScore := if 3 ≤ keyword.length && keyword.length ≤ 10 then 1 else 0
  let techScore :=
    if isAcronymRun keyword.toList || containsStr keyword "AI" || containsStr keyword "인공지능" ||
       containsStr keyword "반도체" || containsStr keyword "클라우드" then 2 else 0
  titleScore + occurrences + lengthScore + techScore

/-- `extractKeywords`: dictionary pass, pattern pass, set-deduplication, relevance
scoring, stable descending sort, top 12. -/
def extractKeywords (text : String) : List String :=
  if text = "" then []
  else
    let textLower := strToLower text
    let cleanText := replaceNonWord (replaceTags [' '] text.toList)
    let keywords := patternPass cleanText (dictPass textLower)
    let uniqueKeywords := dedupStr keywords
    let scored := uniqueKeywords.map (fun k => (k, calculateKeywordRelevance k text))
    let sorted := jsSort (fun a b => b.2 ≤ a.2) scored
    (sorted.take 12).map (fun p => p.1)

/-- The `Article` interface.  `summary` and `keywords` are optional fields. -/
structure Article where
  id : Nat
  title : String
  link : String
  published : String
  source : String
  summary : Option String := none
  keywords : Option (List String) := none
  is_favorite : Bool
deriving DecidableEq, Repr

structure KeywordStats where
  keyword : String
  count : Nat
deriving DecidableEq, Repr

structure NetworkNode where
  id : String
  label : String
  value : Nat
deriving DecidableEq, Repr

/-- A network edge; source fields `from` / `to` are Lean keywords and are embedded
as `fromNode` / `toNode`. -/
structure NetworkEdge where
  fromNode : String
  toNode : String
  value : Nat
deriving DecidableEq, Repr

/-- A feed registry entry (`FEEDS`). -/
structure Feed where
  feed_url : String
  source : String
  category : String
  lang : String
deriving DecidableEq, Repr

/-- An item of the feed-gateway JSON envelope; absent JS fields are the empty
string / empty list. -/
structure FeedItem where
  title : String := ""
  link : String := ""
  url : String := ""
  pubDate : String := ""
  published : String := ""
  description : String := ""
  content : String := ""
  categories : List String := []
deriving DecidableEq, Repr

/-- `parseDate` guards the empty string and otherwise delegates to the host `Date`
constructor plus `toISOString`, supplied as the function argument `hostDate`
(`none` models an unparseable/invalid date). -/
def parseDate (hostDate : String → Option String) (dateStr : String) : Option String :=
  if dateStr = "" then none else hostDate dateStr

/-- One article assembled from a feed item inside `collectNews` (id assignment,
title cleaning, link fallback chain, date fallback to the collection timestamp
`nowIso`, summary cleaning, keyword extraction). -/
def processItem (hostDate : String → Option String) (nowIso : String) (feed : Feed)
    (id : Nat) (item : FeedItem) : Article :=
  { id := id
    title := cleanTitle (jsOr item.title "")
    link := jsOr item.link item.url
    published := (parseDate hostDate (jsOr item.pubDate item.published)).getD nowIso
    source := feed.source
    summary := some (cleanSummary (jsOr item.description item.content))
    keywords := some (extractKeywords
      ((jsOr item.title "") ++ " " ++ (jsOr item.description item.content) ++ " " ++
        String.intercalate " " item.categories))
    is_favorite := false }

/-- Sequential processing of one feed's items with the shared `nextId` counter. -/
def processItems (hostDate : String → Option String) (nowIso : String) (feed : Feed) :
    Nat → List FeedItem → List Article × Nat
  | n, [] => ([], n)
  | n, item :: items =>
    let rest := processItems hostDate nowIso feed (n + 1) items
    (processItem hostDate nowIso feed n item :: rest.1, rest.2)

/-- All feeds processed in registry order (`data.items.slice(0, 50)` per feed); the
concurrent id handout of the source is embedded deterministically in that order. -/
def processAllFeeds (hostDate : String → Option String) (nowIso : String) :
    Nat → List (Feed × List FeedItem) → List (List Article) × Nat
  | n, [] => ([], n)
  | n, (feed, items) :: rest =>
    let first := processItems hostDate nowIso feed n (items.take 50)
    let others := processAllFeeds hostDate nowIso first.2 rest
    (first.1 :: others.1, others.2)

/-- The first deduplication predicate of `collectNews` (`a.link === article.link`). -/
def linkEq (a b : Article) : Bool := a.link == b.link

/-- The final deduplication predicate (`a.link === article.link || a.title === article.title`). -/
def linkOrTitleEq (a b : Article) : Bool := a.link == b.link || a.title == b.title

/-- `generateSampleData`: the five fixed sample articles, ids assigned sequentially
from `nextId`; `iso` is the host `Date#toISOString` rendering of a millisecond
timestamp. -/
def generateSampleData (nextId : Nat) (now : Int) (iso : Int → String) : List Article :=
  [ { id := nextId
      title := "AI 기술의 새로운 돌파구, GPT-4 성능 향상 발표"
      link := "#sample-1"
      published := iso (now - 3600000)
      source := "IT뉴스 샘플"
      summary := some "최신 AI 모델의 성능 개선과 새로운 기능들이 발표되었습니다. 자연어 처리 능력이 크게 향상되었으며, 다양한 분야에서의 활용 가능성이 확대되고 있습니다."
      keywords := some ["AI", "GPT-4", "자연어처리", "인공지능", "기술발전"]
      is_favorite := false },
    { id := nextId + 1
      title := "5G 네트워크 확산으로 IoT 시장 급성장 전망"
      link := "#sample-2"
      published := iso (now - 7200000)
      source := "테크 샘플"
      summary := some "5G 네트워크의 본격적인 상용화와 함께 IoT(사물인터넷) 시장이 급속도로 성장하고 있습니다. 스마트 시티, 자율주행차, 산업용 IoT 등 다양한 분야에서 혁신이 일어나고 있습니다."
      keywords := some ["5G", "IoT", "스마트시티", "자율주행", "네트워크"]
      is_favorite := false },
    { id := nextId + 2
      title := "메타버스 플랫폼, 엔터프라이즈 시장 진출 가속화"
      link := "#sample-3"
      published := iso (now - 10800000)
      source := "VR뉴스 샘플"
      summary := some "메타버스 기술이 게임과 엔터테인먼트를 넘어 기업용 솔루션으로 확산되고 있습니다. 원격 회의, 교육 훈련, 제품 시연 등 다양한 비즈니스 활용 사례가 늘어나고 있습니다."
      keywords := some ["메타버스", "VR", "AR", "원격회의", "엔터프라이즈"]
      is_favorite := false },
    { id := nextId + 3
      title := "양자 컴퓨팅 상용화 앞당기는 새로운 알고리즘 개발"
      link := "#sample-4"
      published := iso (now - 14400000)
      source := "과학기술 샘플"
      summary := some "양자 컴퓨팅의 상용화를 앞당길 수 있는 새로운 양자 알고리즘이 개발되었습니다. 기존 컴퓨터로는 해결하기 어려운 복잡한 문제들을 효율적으로 처리할 수 있을 것으로 기대됩니다."
      keywords := some ["양자컴퓨팅", "양자알고리즘", "슈퍼컴퓨터", "과학기술", "혁신"]
      is_favorite := false },
    { id := nextId + 4
      title := "블록체인 기반 디지털 신원인증 시스템 도입 확대"
      link := "#sample-5"
      published := iso (now - 18000000)
      source := "블록체인 샘플"
      summary := some "블록체인 기술을 활용한 디지털 신원인증 시스템이 금융, 의료, 교육 등 다양한 분야에서 도입되고 있습니다. 개인정보 보호와 보안성을 크게 향상시킬 것으로 예상됩니다."
      keywords := some ["블록체인", "디지털신원", "보안", "개인정보보호", "핀테크"]
      is_favorite := false } ]

/-- The merged and deduplicated article sequence of `collectNews` before the sample
fallback: flatten the per-feed lists in registry order, deduplicate by link
(first occurrence wins), append scraped articles, then deduplicate by link OR
title. -/
def finalMergedArticles (hostDate : String → Option String) (nowIso : String)
    (feedData : List (Feed × List FeedItem)) (scraped : List Article) (nextId : Nat) :
    List Article :=
  let processed := processAllFeeds hostDate nowIso nextId feedData
  let uniqueArticles := dedupFirst linkEq processed.1.flatten
  dedupFirst linkOrTitleEq (uniqueArticles ++ scraped)

/-- `collectNews`: the committed article set of one collection run (and the
`nextId` counter after it).  Network fetching is external: `feedData` is the
settled per-feed item payload in registry order and `scraped` the scraping-pass
output.  If the final merge holds fewer than 10 articles the fixed sample data
is appended. -/
def collectNews (hostDate : String → Option String) (nowIso : String) (now : Int)
    (iso : Int → String) (feedData : List (Feed × List FeedItem)) (scraped : List Article)
    (nextId : Nat) : List Article × Nat :=
  let n1 := (processAllFeeds hostDate nowIso nextId feedData).2
  let finalUnique := finalMergedArticles hostDate nowIso feedData scraped nextId
  if finalUnique.length < 10 then (finalUnique ++ generateSampleData n1 now iso, n1 + 5)
  else (finalUnique, n1)

/-- `CACHE_DURATION = 30 * 60 * 1000` milliseconds. -/
def CACHE_DURATION : Int := 30 * 60 * 1000

/-- `isCacheValid`: false without a stored timestamp, otherwise the elapsed time
must be strictly below the TTL.  The `localStorage` string and `parseInt` are
modelled as an `Option Int` millisecond timestamp. -/
def isCacheValid (lastUpdate : Option Int) (now : Int) : Bool :=
  match lastUpdate with
  | none => false
  | some updateTime => now - updateTime < CACHE_DURATION

/-- `toggleFavorite`: flip `is_favorite` on the first article whose id matches
(`Array.prototype.find` + in-place mutation), leaving everything else intact. -/
def toggleFavorite (articles : List Article) (articleId : Nat) : List Article :=
  match articles with
  | [] => []
  | a :: rest =>
    if a.id == articleId then { a with is_favorite := !a.is_favorite } :: rest
    else a :: toggleFavorite rest articleId

/-- `keywordCount[keyword] = (keywordCount[keyword] || 0) + 1` on a plain JS object:
update the first matching entry in place, else append (insertion order). -/
def upsertInc : List (String × Nat) → String → List (String × Nat)
  | [], k => [(k, 1)]
  | (k0, v) :: rest, k =>
    if k0 = k then (k0, v + 1) :: rest else (k0, v) :: upsertInc rest k

/-- The keyword count object of `getKeywordStats`, as an insertion-ordered
association list (all arising keys are non-index strings, so `Object.entries`
iterates in insertion order). -/
def keywordCounts (articles : List Article) : List (String × Nat) :=
  articles.foldl (fun m a => (a.keywords.getD []).foldl upsertInc m) []

/-- `getKeywordStats`: entries sorted by count descending (stable), top 30. -/
def getKeywordStats (articles : List Article) : List KeywordStats :=
  ((jsSort (fun a b => b.count ≤ a.count)
    ((keywordCounts articles).map (fun p => ({ keyword := p.1, count := p.2 } : KeywordStats)))).take 30)

/-- `[a, b].sort().join("|")`: the lexicographically ordered pair joined by a bar. -/
def joinPairKey (a b : String) : String :=
  if strLt b a then b ++ "|" ++ a else a ++ "|" ++ b

/-- All `i < j` keyword pairs of one article, as joined keys in loop order. -/
def pairKeysOf : List String → List String
  | [] => []
  | k :: rest => rest.map (joinPairKey k) ++ pairKeysOf rest

/-- The co-occurrence count object of `getKeywordNetwork`. -/
def keywordPairCounts (articles : List Article) : List (String × Nat) :=
  articles.foldl (fun m a => (pairKeysOf (a.keywords.getD [])).foldl upsertInc m) []

/-- `String.prototype.split("|")` on a character list. -/
def splitBarAux : List Char → List (List Char)
  | [] => [[]]
  | c :: cs =>
    if c = '|' then [] :: splitBarAux cs
    else
      match splitBarAux cs with
      | s :: ss => (c :: s) :: ss
      | [] => [[c]]

def splitBar (s : String) : List String := (splitBarAux s.toList).map (fun l => ⟨l⟩)

/-- `getKeywordNetwork`: top-15 keywords as nodes (value = count × 2); pair counts
filtered to counts above 1, capped at 20, kept as edges when both split
endpoints are among the top keywords. -/
def getKeywordNetwork (articles : List Article) : List NetworkNode × List NetworkEdge :=
  let keywordStats := getKeywordStats articles
  let topKeywords := keywordStats.take 15
  let nodes := topKeywords.map
    (fun stat => ({ id := stat.keyword, label := stat.keyword, value := stat.count * 2 } : NetworkNode))
  let topKeywordSet := topKeywords.map (fun k => k.keyword)
  let edges := (((keywordPairCounts articles).filter (fun p => 1 < p.2)).take 20).foldl
    (fun es p =>
      let parts := splitBar p.1
      let f := parts.headD ""
      let t := (parts.get? 1).getD ""
      if topKeywordSet.contains f && topKeywordSet.contains t then
        es ++ [{ fromNode := f, toNode := t, value := p.2 }]
      else es) []
  (nodes, edges)

/-- Case-insensitive prefix test (the item field regexes carry the `i` flag). -/
def ciIsPrefixOf : List Char → List Char → Bool
  | [], _ => true
  | _ :: _, [] => false
  | p :: ps, c :: cs => p.toLower = c.toLower && ciIsPrefixOf ps cs

/-- An intermediate feed record `{title, link, pubDate, description}`. -/
structure RSSItem where
  title : String
  link : String
  pubDate : String
  description : String
deriving DecidableEq, Repr

/-- Modelled from the spec: `decodeHtmlEntities` delegates to a browser DOM textarea
("HTML-entity-encoded text must be decoded before exposure"); we model decoding
of the standard named character references and leave other text unchanged. -/
def entityTable : List (List Char × Char) :=
  [ ("amp;".toList, '&'), ("lt;".toList, '<'), ("gt;".toList, '>'),
    ("quot;".toList, '"'), ("apos;".toList, Char.ofNat 39), ("nbsp;".toList, ' ') ]

def decodeEntitiesAux : Nat → List Char → List Char
  | 0, l => l
  | _, [] => []
  | fuel + 1, c :: cs =>
    if c = '&' then
      match entityTable.find? (fun e => e.1.isPrefixOf cs) with
      | some e => e.2 :: decodeEntitiesAux fuel (cs.drop e.1.length)
      | none => c :: decodeEntitiesAux fuel cs
    else c :: decodeEntitiesAux fuel cs

def decodeEntitiesL (l : List Char) : List Char := decodeEntitiesAux l.length l

def decodeHtmlEntities (text : String) : String := ⟨decodeEntitiesL text.toList⟩

/-- `<(?:item|entry)[^>]*>` at the head of `l` (case-insensitive): returns the rest
after the closing `>` of the opening tag. -/
def matchItemOpen (l : List Char) : Option (List Char) :=
  match l with
  | '<' :: rest =>
    match ([ "item".toList, "entry".toList ]).find? (fun nm => ciIsPrefixOf nm rest) with
    | some nm =>
      let after := rest.drop nm.length
      let inner := after.takeWhile (fun d => d ≠ '>')
      if inner.length < after.length then some (after.drop (inner.length + 1)) else none
    | none => none
  | _ => none

/-- `</(?:item|entry)>` at the head of `l` (case-insensitive): rest after the tag. -/
def matchItemClose (l : List Char) : Option (List Char) :=
  if ciIsPrefixOf "</item>".toList l then some (l.drop 7)
  else if ciIsPrefixOf "</entry>".toList l then some (l.drop 8)
  else none

/-- Lazy `([\s\S]*?)` up to the first item/entry closing tag: returns the block
content and the rest after the closing tag, or `none` when no closing follows. -/
def takeUntilItemClose : List Char → Option (List Char × List Char)
  | [] => none
  | c :: cs =>
    match matchItemClose (c :: cs) with
    | some rest => some ([], rest)
    | none => (takeUntilItemClose cs).map (fun pr => (c :: pr.1, pr.2))

/-- Global matches of the `itemRegex`: leftmost-first item/entry blocks, scanning
resuming after each block's closing tag.  Fuel is the input length; every step
consumes at least one character. -/
def scanItemBlocksAux : Nat → List Char → List (List Char)
  | 0, _ => []
  | _, [] => []
  | fuel + 1, c :: cs =>
    match matchItemOpen (c :: cs) with
    | some afterOpen =>
      match takeUntilItemClose afterOpen with
      | some (content, rest) => content :: scanItemBlocksAux fuel rest
      | none => scanItemBlocksAux fuel cs
    | none => scanItemBlocksAux fuel cs

def scanItemBlocks (l : List Char) : List (List Char) := scanItemBlocksAux l.length l

/-- `</(?:nm1|...)>` exactly (case-insensitive). -/
def matchCloseNamed (names : List (List Char)) (l : List Char) : Bool :=
  match l with
  | '<' :: '/' :: rest =>
    names.any (fun nm =>
      ciIsPrefixOf nm rest &&
        match rest.drop nm.length with
        | '>' :: _ => true
        | _ => false)
  | _ => false

/-- `<(?:names)[^>]*>(?:<!\[CDATA\[([^\]]+)\]\]>|([^<]+))</(?:names)>` at the head of
`l` (case-insensitive), the CDATA branch only when `cdata` is set: returns the
captured group.  When the body starts with a CDATA opener whose branch fails, the
`([^<]+)` branch cannot apply either (it may not start with `<`). -/
def matchTaggedTextAt (names : List (List Char)) (cdata : Bool) (l : List Char) :
    Option (List Char) :=
  match l with
  | '<' :: rest =>
    match names.find? (fun nm => ciIsPrefixOf nm rest) with
    | some nm =>
      let after := rest.drop nm.length
      let inner := after.takeWhile (fun d => d ≠ '>')
      if inner.length < after.length then
        let body := after.drop (inner.length + 1)
        if cdata && ciIsPrefixOf "<![CDATA[".toList body then
          let cd := body.drop 9
          let content := cd.takeWhile (fun d => d ≠ ']')
          if 0 < content.length && "]]>".toList.isPrefixOf (cd.drop content.length) &&
             matchCloseNamed names (cd.drop (content.length + 3)) then
            some content
          else none
        else
          let content := body.takeWhile (fun d => d ≠ '<')
          if 0 < content.length && matchCloseNamed names (body.drop content.length) then
            some content
          else none
      else none
    | none => none
  | _ => none

/-- The `linkRegex`
`<link[^>]*(?:href=["\x27]([^"\x27]+)["\x27])?[^>]*>([^<]*)<\/link>|<link[^>]*>([^<]+)<\/link>`.
Because the leading `[^>]*` is greedy and the `href` group optional, a successful
match without backtracking consumes up to the first `>` after `<link`, captures the
following `[^<]*` run and requires `</link>`; the `href` group then never
participates, so `match[1]` is never produced and the second alternative adds
nothing.  We embed that dominant greedy path. -/
def matchLinkAt (l : List Char) : Option (List Char) :=
  if ciIsPrefixOf "<link".toList l then
    let after := l.drop 5
    let inner := after.takeWhile (fun d => d ≠ '>')
    if inner.length < after.length then
      let body := after.drop (inner.length + 1)
      let content := body.takeWhile (fun d => d ≠ '<')
      if ciIsPrefixOf "</link>".toList (body.drop content.length) then some content else none
    else none
  else none

/-- `RegExp.prototype.exec` without the `g` flag: try the matcher at every
position, leftmost match wins. -/
def findFirstMatch {α : Type} (m : List Char → Option α) : List Char → Option α
  | [] => m []
  | c :: cs =>
    match m (c :: cs) with
    | some r => some r
    | none => findFirstMatch m cs

/-- One loop body of `parseRSSFromXML`: field extraction from an item block and the
acceptance test (`title && (link || count === 0)`); `count` feeds the synthetic
placeholder link. -/
def parseItemContent (source nowIso : String) (count : Nat) (itemContent : List Char) :
    Option RSSItem :=
  match findFirstMatch (matchTaggedTextAt [ "title".toList ] true) itemContent with
  | none => none
  | some titleRaw =>
    let title := jsTrim ⟨titleRaw⟩
    let link0 :=
      match findFirstMatch matchLinkAt itemContent with
      | some linkRaw => jsTrim ⟨linkRaw⟩
      | none => ""
    let link :=
      if link0 = "" then
        match findFirstMatch (matchTaggedTextAt [ "guid".toList ] false) itemContent with
        | some g =>
          let guid := jsTrim ⟨g⟩
          if strStartsWith guid "http" then guid else ""
        | none => ""
      else link0
    let pubDate :=
      match findFirstMatch
          (matchTaggedTextAt [ "pubDate".toList, "published".toList, "updated".toList ] false)
          itemContent with
      | some p => jsTrim ⟨p⟩
      | none => nowIso
    let description :=
      match findFirstMatch
          (matchTaggedTextAt [ "description".toList, "summary".toList, "content".toList ] true)
          itemContent with
      | some d => jsTrim ⟨d⟩
      | none => ""
    if title ≠ "" && (link ≠ "" || count = 0) then
      some { title := decodeHtmlEntities title
             link := if link = "" then "#" ++ source ++ "-" ++ toString count else link
             pubDate := pubDate
             description := decodeHtmlEntities description }
    else none

/-- The `while` loop of `parseRSSFromXML`: process successive item blocks while
`count < 15`, incrementing `count` only on accepted records. -/
def parseRSSLoop (source nowIso : String) : List (List Char) → Nat → List RSSItem
  | [], _ => []
  | b :: bs, count =>
    if 15 ≤ count then []
    else
      match parseItemContent source nowIso count b with
      | some item => item :: parseRSSLoop source nowIso bs (count + 1)
      | none => parseRSSLoop source nowIso bs count

/-- `parseRSSFromXML` (the fallback timestamp `new Date().toISOString()` is the
parameter `nowIso`). -/
def parseRSSFromXML (xmlContent source : String) (nowIso : String) : List RSSItem :=
  parseRSSLoop source nowIso (scanItemBlocks xmlContent.toList) 0

/-- Greedy attribute search for `<a[^>]*attr"VALUE"[^>]*>`: candidate positions of
the attribute literal inside the maximal non-`>` span after `<a`, rightmost first
(regex backtracking order on the greedy leading `[^>]*`). -/
def attrCandidates (attr after : List Char) (innerLen : Nat) : List Nat :=
  ((List.range (innerLen + 1)).filter (fun i => attr.isPrefixOf (after.drop i))).reverse

/-- Continuation after an attribute candidate: capture the maximal non-`"` run
(`([^"]+)`, nonempty, allowed to cross `>`), require the closing quote, then skip
to the tag-closing `>`.  Returns the capture and the rest after the match. -/
def tryAttrAt (attr after : List Char) (i : Nat) : Option (List Char × List Char) :=
  let afterAttr := after.drop (i + attr.length)
  let value := afterAttr.takeWhile (fun d => d ≠ '"')
  if 0 < value.length ∧ value.length < afterAttr.length then
    let afterQuote := afterAttr.drop (value.length + 1)
    let skip := afterQuote.takeWhile (fun d => d ≠ '>')
    if skip.length < afterQuote.length then some (value, afterQuote.drop (skip.length + 1))
    else none
  else none

/-- One anchor-attribute match (`<a[^>]*title="([^"]+)"[^>]*>` /
`<a[^>]*href="([^"]+)"[^>]*>`, case-sensitive) at the head of `l`. -/
def matchAnchorAttrAt (attr : List Char) (l : List Char) : Option (List Char × List Char) :=
  if "<a".toList.isPrefixOf l then
    let after := l.drop 2
    let inner := after.takeWhile (fun d => d ≠ '>')
    (attrCandidates attr after inner.length).findSome? (tryAttrAt attr after)
  else none

/-- `<h[1-6][^>]*>([^<]+)<` at the head of `l`; the trailing `<` is part of the
match and is consumed. -/
def matchHeadingAt (l : List Char) : Option (List Char × List Char) :=
  match l with
  | '<' :: 'h' :: d :: rest =>
    if '1' ≤ d ∧ d ≤ '6' then
      let inner := rest.takeWhile (fun e => e ≠ '>')
      if inner.length < rest.length then
        let body := rest.drop (inner.length + 1)
        let content := body.takeWhile (fun e => e ≠ '<')
        if 0 < content.length ∧ content.length < body.length then
          some (content, body.drop (content.length + 1))
        else none
      else none
    else none
  | _ => none

/-- `matchAll` of the scrape `titleRegex` (anchor-title alternative first, heading
alternative second, leftmost-first, resuming after each match). -/
def htmlTitleMatchesAux : Nat → List Char → List String
  | 0, _ => []
  | _, [] => []
  | fuel + 1, c :: cs =>
    match matchAnchorAttrAt ("title=".toList ++ ['"']) (c :: cs) with
    | some (v, rest) => (⟨v⟩ : String) :: htmlTitleMatchesAux fuel rest
    | none =>
      match matchHeadingAt (c :: cs) with
      | some (v, rest) => (⟨v⟩ : String) :: htmlTitleMatchesAux fuel rest
      | none => htmlTitleMatchesAux fuel cs

def htmlTitleMatches (l : List Char) : List String := htmlTitleMatchesAux l.length l

/-- `matchAll` of the scrape `linkRegex` `<a[^>]*href="([^"]+)"[^>]*>`. -/
def htmlLinkMatchesAux : Nat → List Char → List String
  | 0, _ => []
  | _, [] => []
  | fuel + 1, c :: cs =>
    match matchAnchorAttrAt ("href=".toList ++ ['"']) (c :: cs) with
    | some (v, rest) => (⟨v⟩ : String) :: htmlLinkMatchesAux fuel rest
    | none => htmlLinkMatchesAux fuel cs

def htmlLinkMatches (l : List Char) : List String := htmlLinkMatchesAux l.length l

/-- One scraped article (`parseArticlesFromHTML` loop body). -/
def scrapedArticle (source nowIso : String) (id : Nat) (title link : String) : Article :=
  { id := id
    title := cleanTitle title
    link := if strStartsWith link "http" then link else "https://" ++ source ++ link
    published := nowIso
    source := source
    summary := some (source ++ "에서 스크래핑한 기사입니다.")
    keywords := some (extractKeywords title)
    is_favorite := false }

/-- The `for` loop of `parseArticlesFromHTML` over paired title/link matches
(`title && link && title.length > 10`), threading `nextId`. -/
def buildScraped (source nowIso : String) : Nat → List (String × String) → List Article × Nat
  | n, [] => ([], n)
  | n, p :: rest =>
    let t := jsTrim p.1
    if t ≠ "" && p.2 ≠ "" && 10 < t.length then
      (scrapedArticle source nowIso n t p.2 :: (buildScraped source nowIso (n + 1) rest).1,
        (buildScraped source nowIso (n + 1) rest).2)
    else buildScraped source nowIso n rest

/-- `parseArticlesFromHTML`: titles and links paired index-wise, at most
`Math.min(titles.length, links.length, 20)` records per page. -/
def parseArticlesFromHTML (html source : String) (nextId : Nat) (nowIso : String) :
    List Article × Nat :=
  let titles := htmlTitleMatches html.toList
  let links := htmlLinkMatches html.toList
  buildScraped source nowIso nextId ((titles.zip links).take 20)

/-- The spec's "short list of high-value domain terms". -/
def highValueTerms : List String := ["AI", "인공지능", "반도체", "클라우드"]

/-- Spec formula, title clause: "+3 if it appears within the first ~100 characters
of the source text" (same containment test as the code). -/
def claimTitleBonus (keyword text : String) : Nat :=
  if containsStr (strToLower (strTake text (min text.length 100))) (strToLower keyword) then 3 else 0

/-- Spec formula, length clause: "+1 if length is between 3 and 10 characters". -/
def claimLengthBonus (keyword : String) : Nat :=
  if 3 ≤ keyword.length && keyword.length ≤ 10 then 1 else 0

/-- Spec formula, read literally: the raw occurrence count of the (lowercased)
keyword in the (lowercased) text, as a literal substring. -/
def claimLiteralOccurrences (keyword text : String) : Nat :=
  countLiteralMatches (strToLower keyword).toList (strToLower text).toList

/-- Spec formula, read literally: "+2 if it matches a 2-5 letter all-caps acronym
pattern or belongs to the short list of high-value domain terms". -/
def claimTechBonus (keyword : String) : Nat :=
  if isAcronymRun keyword.toList || highValueTerms.contains keyword then 2 else 0

/-- The claim's relevance score, read literally. -/
def claim_relevanceScore (keyword text : String) : Nat :=
  claimTitleBonus keyword text + claimLiteralOccurrences keyword text +
    claimLengthBonus keyword + claimTechBonus keyword

/-- Amended occurrence clause: the count of matches of the lowercased keyword
compiled as a regex (so `.` inside a keyword is a wildcard) over the lowercased
text. -/
def spec_regexOccurrences (keyword text : String) : Nat :=
  countRegexMatches (strToLower keyword).toList (strToLower text).toList

/-- Amended tech clause: "+2 if it matches a 2-5 letter all-caps acronym pattern or
*contains* one of the high-value domain substrings". -/
def spec_techBonus (keyword : String) : Nat :=
  if isAcronymRun keyword.toList || containsStr keyword "AI" || containsStr keyword "인공지능" ||
     containsStr keyword "반도체" || containsStr keyword "클라우드" then 2 else 0

/-- Number of articles whose keyword list contains `k`. -/
def articleCountWith (articles : List Article) (k : String) : Nat :=
  (articles.filter (fun a => (a.keywords.getD []).contains k)).length

/-- Number of articles whose keyword list contains both `k1` and `k2`. -/
def cooccurrenceCount (articles : List Article) (k1 k2 : String) : Nat :=
  (articles.filter
    (fun a => (a.keywords.getD []).contains k1 && (a.keywords.getD []).contains k2)).length

/-- A keyword is bar-free when it does not contain the pair-key separator `|`. -/
def barFree (s : String) : Prop := '|' ∉ s.toList

instance (s : String) : Decidable (barFree s) := by unfold barFree; infer_instance

/-- First-entry lookup in a JS-object association list (0 when absent). -/
def lookupCount (m : List (String × Nat)) (k : String) : Nat :=
  (((m.find? (fun p => p.1 = k)).map (fun p => p.2)).getD 0)

/-- The keys of an association list, in order. -/
def keysOf (m : List (String × Nat)) : List String := m.map (fun p => p.1)

/-- Total multiplicity of keyword `k` over all articles (what the count object
accumulates). -/
def totalKeywordCount (articles : List Article) (k : String) : Nat :=
  (articles.map (fun a => (a.keywords.getD []).count k)).sum

/-- Total multiplicity of a pair key over all articles. -/
def totalPairCount (articles : List Article) (key : String) : Nat :=
  (articles.map (fun a => (pairKeysOf (a.keywords.getD [])).count key)).sum

/-- A link is a synthetic placeholder when it has the `#...` form the pipeline
generates (`#<source>-<n>`, `#sample-<n>`). -/
def syntheticLink (link : String) : Bool := strStartsWith link "#"

/-- Fixture articles for witness statements. -/
def wArticleA : Article :=
  { id := 1, title := "ta", link := "la", published := "pa", source := "sa",
    summary := none, keywords := some ["AI", "GPU"], is_favorite := false }

def wArticleB : Article :=
  { id := 2, title := "tb", link := "lb", published := "pb", source := "sb",
    summary := none, keywords := some ["AI", "GPU"], is_favorite := true }

def wArticleC : Article :=
  { id := 3, title := "tc", link := "lc", published := "pc", source := "sc",
    summary := none, keywords := some ["AI"], is_favorite := false }


theorem string_mk_length (l : List Char) : (⟨l⟩ : String).length = l.length := rfl

theorem cleanSummary_length_le (html : String) : (cleanSummary html).length ≤ 203 := by
  unfold cleanSummary
  rw [string_mk_length]
  have h3 : ("...".toList).length = 3 := rfl
  rw [List.length_append, h3]
  have := List.length_take_le 200
    (joinDotSpace
      ((List.filter (fun s => decide (10 < (jsTrimL s).length))
        (splitSentences (replaceEntities [' '] (replaceTags [] html.toList)))).take 2))
  omega

theorem parseRSSLoop_length_le (source nowIso : String) :
    ∀ (bs : List (List Char)) (count : Nat),
      (parseRSSLoop source nowIso bs count).length ≤ 15 - count := by
  intro bs
  induction bs with
  | nil => intro count; simp [parseRSSLoop]
  | cons b bs ih =>
    intro count
    simp only [parseRSSLoop]
    split
    · simp
    · split
      · simp only [List.length_cons]
        have := ih (count + 1)
        rename_i hcount _ _
        omega
      · exact ih count

theorem buildScraped_length_le (source nowIso : String) :
    ∀ (ps : List (String × String)) (n : Nat),
      (buildScraped source nowIso n ps).1.length ≤ ps.length := by
  intro ps
  induction ps with
  | nil => intro n; simp [buildScraped]
  | cons p rest ih =>
    intro n
    simp only [buildScraped]
    split
    · simp only [List.length_cons]
      have := ih (n + 1)
      omega
    · have := ih n
      simp only [List.length_cons]
      omega

/-- C5: given the 30-minute TTL, `isCacheValid` reports the cache valid at
`lastUpdate + 29min`, stale at `lastUpdate + 31min`, and in general validity holds
exactly when the elapsed time since the stored timestamp is strictly below 30
minutes (absent timestamps are always invalid). -/
theorem isCacheValid_ttl (t now : Int) :
    isCacheValid (some t) (t + 29 * 60 * 1000) = true ∧
    isCacheValid (some t) (t + 31 * 60 * 1000) = false ∧
    (isCacheValid (some t) now = true ↔ now - t < 30 * 60 * 1000) ∧
    isCacheValid none now = false := by
  refine ⟨?_, ?_, ?_, rfl⟩ <;> simp [isCacheValid, CACHE_DURATION]

/-- C7: feed parsing yields at most 15 intermediate records per source, and
scraped-HTML parsing yields at most 20 records per page. -/
theorem parser_output_caps :
    (∀ xml source nowIso, (parseRSSFromXML xml source nowIso).length ≤ 15) ∧
    (∀ html source nextId nowIso, (parseArticlesFromHTML html source nextId nowIso).1.length ≤ 20) := by
  constructor
  · intro xml source nowIso
    have := parseRSSLoop_length_le source nowIso (scanItemBlocks xml.toList) 0
    simpa [parseRSSFromXML] using this
  · intro html source nextId nowIso
    show (buildScraped source nowIso nextId
      (((htmlTitleMatches html.toList).zip (htmlLinkMatches html.toList)).take 20)).1.length ≤ 20
    have h1 := buildScraped_length_le source nowIso
      (((htmlTitleMatches html.toList).zip (htmlLinkMatches html.toList)).take 20) nextId
    have h2 := List.length_take_le 20
      ((htmlTitleMatches html.toList).zip (htmlLinkMatches html.toList))
    omega

/-- C9: every article produced from a feed item carries the summary
`cleanSummary(description || content)` — markup stripped, entities replaced,
restricted to the first sentences — and any `cleanSummary` output has length at
most 203 (= 200 + the appended ellipsis), i.e. roughly 200 characters. -/
theorem processItem_summary_clean_bounded :
    (∀ (hostDate : String → Option String) (nowIso : String) (feed : Feed) (id : Nat)
        (item : FeedItem),
      (processItem hostDate nowIso feed id item).summary =
        some (cleanSummary (jsOr item.description item.content))) ∧
    (∀ html, (cleanSummary html).length ≤ 203) :=
  ⟨fun _ _ _ _ _ => rfl, cleanSummary_length_le⟩

/-- C10: `toggleFavorite` changes at most the `is_favorite` field of the article
whose id matches: pointwise over the stored list (same length and order), every
other field of every article is unchanged, any article whose id differs is fully
unchanged, and when no article carries the id the whole state is unchanged. -/
theorem toggleFavorite_frame (articles : List Article) (articleId : Nat) :
    List.Forall₂
      (fun a b => b.id = a.id ∧ b.title = a.title ∧ b.link = a.link ∧
        b.published = a.published ∧ b.source = a.source ∧ b.summary = a.summary ∧
        b.keywords = a.keywords ∧ (a.id ≠ articleId → b = a))
      articles (toggleFavorite articles articleId) ∧
    ((∀ a ∈ articles, a.id ≠ articleId) → toggleFavorite articles articleId = articles) := by
  constructor
  · induction articles with
    | nil => exact List.Forall₂.nil
    | cons a rest ih =>
      simp only [toggleFavorite]
      split
      · rename_i h
        refine List.Forall₂.cons ⟨rfl, rfl, rfl, rfl, rfl, rfl, rfl, ?_⟩ ?_
        · intro hne
          exact absurd (by simpa using h) hne
        · exact List.forall₂_same.mpr
            (fun x _ => ⟨rfl, rfl, rfl, rfl, rfl, rfl, rfl, fun _ => rfl⟩)
      · exact List.Forall₂.cons ⟨rfl, rfl, rfl, rfl, rfl, rfl, rfl, fun _ => rfl⟩ ih
  · induction articles with
    | nil => intro _; rfl
    | cons a rest ih =>
      intro h
      simp only [toggleFavorite]
      rw [if_neg (by simpa using h a (List.mem_cons_self a rest)),
        ih (fun x hx => h x (List.mem_cons_of_mem a hx))]

/-- Witness for C10: on a concrete two-article store with no matching id,
`toggleFavorite` is the identity. -/
theorem toggleFavorite_frame_witness :
    (∀ a ∈ [wArticleA, wArticleB], a.id ≠ 5) ∧
    toggleFavorite [wArticleA, wArticleB] 5 = [wArticleA, wArticleB] :=
  ⟨by decide, (toggleFavorite_frame [wArticleA, wArticleB] 5).2 (by decide)⟩

theorem dedupFirstAux_not_related {α : Type} (eq : α → α → Bool) :
    ∀ (l seen : List α) (s : α), s ∈ seen →
      ∀ b ∈ dedupFirstAux eq seen l, eq s b = false := by
  intro l
  induction l with
  | nil => intro seen s _ b hb; simp [dedupFirstAux] at hb
  | cons a rest ih =>
    intro seen s hs b hb
    simp only [dedupFirstAux] at hb
    by_cases h : seen.any (fun x => eq x a) = true
    · rw [if_pos h] at hb
      exact ih (seen ++ [a]) s (List.mem_append_left _ hs) b hb
    · rw [if_neg h] at hb
      rcases List.mem_cons.mp hb with rfl | hb2
      · have hf : seen.any (fun x => eq x b) = false := by simpa using h
        have := List.any_eq_false.mp hf s hs
        simpa using this
      · exact ih (seen ++ [a]) s (List.mem_append_left _ hs) b hb2

theorem dedupFirstAux_pairwise {α : Type} (eq : α → α → Bool) :
    ∀ (l seen : List α),
      List.Pairwise (fun a b => eq a b = false) (dedupFirstAux eq seen l) := by
  intro l
  induction l with
  | nil => intro seen; simp [dedupFirstAux]
  | cons a rest ih =>
    intro seen
    simp only [dedupFirstAux]
    by_cases h : seen.any (fun x => eq x a) = true
    · rw [if_pos h]; exact ih _
    · rw [if_neg h]
      refine List.Pairwise.cons ?_ (ih _)
      intro b hb
      exact dedupFirstAux_not_related eq rest (seen ++ [a]) a (by simp) b hb

theorem dedupFirst_pairwise {α : Type} (eq : α → α → Bool) (l : List α) :
    List.Pairwise (fun a b => eq a b = false) (dedupFirst eq l) :=
  dedupFirstAux_pairwise eq l []

/-- After the final `link OR title` deduplication pass, retained articles have
pairwise distinct links (and in particular pairwise distinct titles). -/
theorem dedupFirst_linkOrTitle_links_distinct (l : List Article) :
    List.Pairwise (fun a b : Article => a.link ≠ b.link) (dedupFirst linkOrTitleEq l) := by
  refine List.Pairwise.imp ?_ (dedupFirst_pairwise linkOrTitleEq l)
  intro a b h
  have hl : (a.link == b.link) = false := by
    unfold linkOrTitleEq at h
    exact (Bool.or_eq_false_iff.mp h).1
  exact beq_eq_false_iff_ne.mp hl

theorem sample_links_synthetic (nextId : Nat) (now : Int) (iso : Int → String) :
    ∀ a ∈ generateSampleData nextId now iso, syntheticLink a.link = true := by
  intro a ha
  simp only [generateSampleData, List.mem_cons, List.not_mem_nil, or_false] at ha
  rcases ha with rfl | rfl | rfl | rfl | rfl <;> exact of_decide_eq_true rfl

/-- C1: in the article set committed by a collection run, any two distinct retained
articles whose links are not synthetic placeholders have different links
(deduplication by link keeps only first occurrences; appended sample articles all
carry synthetic `#sample-n` links). -/
theorem collectNews_nonSynthetic_links_distinct
    (hostDate : String → Option String) (nowIso : String) (now : Int) (iso : Int → String)
    (feedData : List (Feed × List FeedItem)) (scraped : List Article) (nextId : Nat) :
    List.Pairwise
      (fun a b => syntheticLink a.link = false → syntheticLink b.link = false →
        a.link ≠ b.link)
      (collectNews hostDate nowIso now iso feedData scraped nextId).1 := by
  have hfin :
      List.Pairwise (fun a b : Article => a.link ≠ b.link)
        (finalMergedArticles hostDate nowIso feedData scraped nextId) :=
    dedupFirst_linkOrTitle_links_distinct _
  simp only [collectNews]
  split
  · rw [List.pairwise_append]
    refine ⟨List.Pairwise.imp (fun hne => fun _ _ => hne) hfin, ?_, ?_⟩
    · refine List.pairwise_of_forall_mem_list ?_
      intro a _ b hb _ hbs
      exact absurd hbs (by simp [sample_links_synthetic _ now iso b hb])
    · intro a _ b hb _ hbs
      exact absurd hbs (by simp [sample_links_synthetic _ now iso b hb])
  · exact List.Pairwise.imp (fun hne => fun _ _ => hne) hfin

/-- C4: when the final merge holds fewer than 10 articles, the committed result is
that merge with the fixed sample articles (ids assigned sequentially from the
current counter) appended, so every sample article is contained in the result. -/
theorem collectNews_sample_fallback
    (hostDate : String → Option String) (nowIso : String) (now : Int) (iso : Int → String)
    (feedData : List (Feed × List FeedItem)) (scraped : List Article) (nextId : Nat)
    (h : (finalMergedArticles hostDate nowIso feedData scraped nextId).length < 10) :
    (collectNews hostDate nowIso now iso feedData scraped nextId).1 =
      finalMergedArticles hostDate nowIso feedData scraped nextId ++
        generateSampleData (processAllFeeds hostDate nowIso nextId feedData).2 now iso ∧
    ∀ a ∈ generateSampleData (processAllFeeds hostDate nowIso nextId feedData).2 now iso,
      a ∈ (collectNews hostDate nowIso now iso feedData scraped nextId).1 := by
  have heq : (collectNews hostDate nowIso now iso feedData scraped nextId).1 =
      finalMergedArticles hostDate nowIso feedData scraped nextId ++
        generateSampleData (processAllFeeds hostDate nowIso nextId feedData).2 now iso := by
    simp only [collectNews]
    rw [if_pos h]
  refine ⟨heq, ?_⟩
  intro a ha
  rw [heq]
  exact List.mem_append_right _ ha

/-- Witness for C4: an empty collection run is padded with the sample articles. -/
theorem collectNews_sample_fallback_witness :
    (finalMergedArticles (fun _ => none) "" [] [] 1).length < 10 ∧
    ∀ a ∈ generateSampleData (processAllFeeds (fun _ => none) "" 1 []).2 0 (fun _ => ""),
      a ∈ (collectNews (fun _ => none) "" 0 (fun _ => "") [] [] 1).1 :=
  ⟨by decide, (collectNews_sample_fallback (fun _ => none) "" 0 (fun _ => "") [] [] 1
    (by decide)).2⟩

theorem dedupStr_nodup (l : List String) : (dedupStr l).Nodup :=
  List.Pairwise.imp (fun h => beq_eq_false_iff_ne.mp h)
    (dedupFirst_pairwise (fun a b : String => a == b) l)

theorem insertStable_perm {α : Type} (le : α → α → Bool) (a : α) :
    ∀ l : List α, (insertStable le a l).Perm (a :: l) := by
  intro l
  induction l with
  | nil => simp [insertStable]
  | cons b bs ih =>
    simp only [insertStable]
    split
    · exact (ih.cons b).trans (List.Perm.swap a b bs)
    · exact List.Perm.refl _

theorem jsSort_perm {α : Type} (le : α → α → Bool) : ∀ l : List α, (jsSort le l).Perm l := by
  intro l
  induction l with
  | nil => exact List.Perm.refl _
  | cons x xs ih => exact (insertStable_perm le x (jsSort le xs)).trans (ih.cons x)

theorem insertStable_pairwise {α : Type} (le : α → α → Bool)
    (htrans : ∀ a b c, le a b = true → le b c = true → le a c = true)
    (htotal : ∀ a b, (le a b || le b a) = true) (a : α) :
    ∀ l : List α, List.Pairwise (fun x y => le x y = true) l →
      List.Pairwise (fun x y => le x y = true) (insertStable le a l) := by
  intro l
  induction l with
  | nil => intro _; exact List.Pairwise.cons (by simp) List.Pairwise.nil
  | cons b bs ih =>
    intro h
    rcases List.pairwise_cons.mp h with ⟨hb, hbs⟩
    simp only [insertStable]
    split
    · rename_i hcond
      have hba : le b a = true := ((Bool.and_eq_true _ _).mp hcond).1
      refine List.pairwise_cons.mpr ⟨?_, ih hbs⟩
      intro y hy
      rcases List.mem_cons.mp ((insertStable_perm le a bs).subset hy) with rfl | hybs
      · exact hba
      · exact hb y hybs
    · rename_i hcond
      have hab : le a b = true := by
        by_cases h1 : le a b = true
        · exact h1
        · have h1f : le a b = false := Bool.eq_false_iff.mpr h1
          have h2 : le b a = true := by
            rcases (Bool.or_eq_true _ _).mp (htotal a b) with h | h
            · exact absurd h h1
            · exact h
          exact absurd (by rw [h2, h1f]; rfl) hcond
      refine List.pairwise_cons.mpr ⟨?_, h⟩
      intro y hy
      rcases List.mem_cons.mp hy with rfl | hybs
      · exact hab
      · exact htrans a b y hab (hb y hybs)

theorem jsSort_pairwise {α : Type} (le : α → α → Bool)
    (htrans : ∀ a b c, le a b = true → le b c = true → le a c = true)
    (htotal : ∀ a b, (le a b || le b a) = true) :
    ∀ l : List α, List.Pairwise (fun x y => le x y = true) (jsSort le l) := by
  intro l
  induction l with
  | nil => exact List.Pairwise.nil
  | cons x xs ih => exact insertStable_pairwise le htrans htotal x _ ih

theorem scoredSort_props (u : List String) (f : String → Nat) (hu : u.Nodup) :
    (((jsSort (fun a b => b.2 ≤ a.2) (u.map (fun k => (k, f k)))).take 12).map
        (fun p => p.1)).length ≤ 12 ∧
    (((jsSort (fun a b => b.2 ≤ a.2) (u.map (fun k => (k, f k)))).take 12).map
        (fun p => p.1)).Nodup ∧
    List.Pairwise (fun a b => f b ≤ f a)
      (((jsSort (fun a b => b.2 ≤ a.2) (u.map (fun k => (k, f k)))).take 12).map
        (fun p => p.1)) := by
  have hperm := jsSort_perm (fun a b : String × Nat => b.2 ≤ a.2) (u.map (fun k => (k, f k)))
  have hmem : ∀ p ∈ jsSort (fun a b : String × Nat => b.2 ≤ a.2) (u.map (fun k => (k, f k))),
      p.2 = f p.1 := by
    intro p hp
    have hp2 : p ∈ u.map (fun k => (k, f k)) := hperm.mem_iff.mp hp
    rcases List.mem_map.mp hp2 with ⟨k, _, rfl⟩
    rfl
  refine ⟨?_, ?_, ?_⟩
  · simp only [List.length_map]
    exact (List.length_take_le 12 _)
  · have h1 : ((jsSort (fun a b : String × Nat => b.2 ≤ a.2) (u.map (fun k => (k, f k)))).map
        (fun p => p.1)).Perm u := by
      have := hperm.map (fun p : String × Nat => p.1)
      simpa [List.map_map, Function.comp_def] using this
    exact List.Nodup.sublist
      ((List.take_sublist 12 _).map (fun p : String × Nat => p.1)) (h1.symm.nodup hu)
  · have htrans : ∀ a b c : String × Nat,
        (fun a b : String × Nat => (decide (b.2 ≤ a.2))) a b = true →
        (fun a b : String × Nat => (decide (b.2 ≤ a.2))) b c = true →
        (fun a b : String × Nat => (decide (b.2 ≤ a.2))) a c = true := by
      intro a b c hab hbc
      simp only [decide_eq_true_eq] at *
      omega
    have htotal : ∀ a b : String × Nat,
        ((fun a b : String × Nat => (decide (b.2 ≤ a.2))) a b ||
          (fun a b : String × Nat => (decide (b.2 ≤ a.2))) b a) = true := by
      intro a b
      rcases Nat.le_total a.2 b.2 with h | h <;> simp [h]
    have hs := jsSort_pairwise _ htrans htotal (u.map (fun k => (k, f k)))
    have hs2 := hs.sublist (List.take_sublist 12 _)
    rw [List.pairwise_map]
    refine List.Pairwise.imp_of_mem ?_ hs2
    intro a b ha hb hab
    have ha2 := (List.take_sublist 12 _).subset ha
    have hb2 := (List.take_sublist 12 _).subset hb
    rw [← hmem a ha2, ← hmem b hb2]
    simpa using hab

/-- C2: `extractKeywords` returns an ordered list of at most 12 pairwise-distinct
keyword strings whose relevance scores are non-increasing along the list, and it
returns `[]` on empty input (no failure path exists). -/
theorem extractKeywords_bounded_distinct_sorted (text : String) :
    (extractKeywords text).length ≤ 12 ∧
    (extractKeywords text).Nodup ∧
    List.Pairwise
      (fun a b => calculateKeywordRelevance b text ≤ calculateKeywordRelevance a text)
      (extractKeywords text) ∧
    (text = "" → extractKeywords text = []) := by
  by_cases h0 : text = ""
  · subst h0
    exact ⟨by simp [extractKeywords], by simp [extractKeywords],
      by simp [extractKeywords], fun _ => rfl⟩
  · have hmain := scoredSort_props
      (dedupStr (patternPass (replaceNonWord (replaceTags [' '] text.toList))
        (dictPass (strToLower text))))
      (fun k => calculateKeywordRelevance k text) (dedupStr_nodup _)
    refine ⟨?_, ?_, ?_, fun he => absurd he h0⟩ <;>
      simp only [extractKeywords, if_neg h0]
    · exact hmain.1
    · exact hmain.2.1
    · exact hmain.2.2

/-- Witness for C2: empty input yields the empty keyword list. -/
theorem extractKeywords_bounded_distinct_sorted_witness : extractKeywords "" = [] :=
  (extractKeywords_bounded_distinct_sorted "").2.2.2 rfl

/-- Counterexample for C3.  The claim's formula, read literally, fails on the code:
(1) the occurrence count is computed by compiling the lowercased keyword as a
regex, so the `.` in "Node.js" matches any character ("nodexjs" scores an
occurrence the literal reading does not); (2) the +2 bonus applies when the
keyword merely *contains* "AI" (or one of the other high-value substrings), not
only when it *belongs* to the short list — "OpenAI" receives it. -/
theorem calculateKeywordRelevance_claim_counterexample :
    calculateKeywordRelevance "OpenAI" "" = 3 ∧
    claim_relevanceScore "OpenAI" "" = 1 ∧
    calculateKeywordRelevance "Node.js" "nodexjs" = 2 ∧
    claim_relevanceScore "Node.js" "nodexjs" = 1 ∧
    calculateKeywordRelevance "OpenAI" "" ≠ claim_relevanceScore "OpenAI" "" ∧
    calculateKeywordRelevance "Node.js" "nodexjs" ≠
      claim_relevanceScore "Node.js" "nodexjs" := by
  decide

/-- C3 (amended): the relevance score is the sum of the title-window bonus (+3),
the occurrence count of the lowercased keyword compiled as a regex over the
lowercased whole text, the length bonus (+1 for length 3..10) and +2 when the
keyword matches the 2-5-letter all-caps acronym pattern or contains one of the
high-value domain substrings; `extractKeywords "AI 반도체 AI"` contains "AI"
exactly once, with both occurrences counted (score 3 + 2 + 0 + 2). -/
theorem calculateKeywordRelevance_amended :
    (∀ keyword text, calculateKeywordRelevance keyword text =
      claimTitleBonus keyword text + spec_regexOccurrences keyword text +
        claimLengthBonus keyword + spec_techBonus keyword) ∧
    (extractKeywords "AI 반도체 AI").count "AI" = 1 ∧
    spec_regexOccurrences "AI" "AI 반도체 AI" = 2 ∧
    calculateKeywordRelevance "AI" "AI 반도체 AI" = 3 + 2 + 0 + 2 :=
  ⟨fun _ _ => rfl, by decide, by decide, by decide⟩

/-- The C6 scenario payload. -/
def c6Payload : String :=
  "<item><title>Hello</title><link>http://x</link><pubDate>Mon, 01 Jan 2024 00:00:00 GMT</pubDate></item>"

/-- Counterexample for C6: the parser yields one record with title "Hello", link
"http://x", empty description — but its `pubDate` is the raw feed string
"Mon, 01 Jan 2024 00:00:00 GMT", not an ISO form of 2024-01-01 (every ISO-8601
rendering of that date starts with "2024"; conversion to ISO happens only as the
fallback for a *missing* pubDate). -/
theorem parseRSSFromXML_pubDate_not_iso :
    (parseRSSFromXML c6Payload "TestSource" "2026-02-03T04:05:06.000Z").map
      (fun r => r.pubDate) = ["Mon, 01 Jan 2024 00:00:00 GMT"] ∧
    strStartsWith "Mon, 01 Jan 2024 00:00:00 GMT" "2024" = false := by
  decide

/-- C6 (amended): for any source label and collection timestamp, the parser yields
exactly one record `{title := "Hello", link := "http://x", pubDate := raw feed
string, description := ""}` on the scenario payload. -/
theorem parseRSSFromXML_hello_payload (source nowIso : String) :
    parseRSSFromXML c6Payload source nowIso =
      [{ title := "Hello", link := "http://x",
         pubDate := "Mon, 01 Jan 2024 00:00:00 GMT", description := "" }] := rfl

theorem lookupCount_nil (k : String) : lookupCount [] k = 0 := rfl

theorem lookupCount_cons (p : String × Nat) (m : List (String × Nat)) (k : String) :
    lookupCount (p :: m) k = if p.1 = k then p.2 else lookupCount m k := by
  simp only [lookupCount, List.find?]
  by_cases h : p.1 = k
  · simp [h]
  · simp [h]

theorem lookupCount_upsertInc (m : List (String × Nat)) (k k2 : String) :
    lookupCount (upsertInc m k) k2 = lookupCount m k2 + (if k2 = k then 1 else 0) := by
  induction m with
  | nil =>
    show lookupCount [(k, 1)] k2 = lookupCount [] k2 + _
    rw [lookupCount_cons, lookupCount_nil]
    by_cases h : k2 = k
    · simp [h]
    · have h2 : ¬ k = k2 := fun hh => h hh.symm
      simp [h, h2]
  | cons p rest ih =>
    obtain ⟨k0, v⟩ := p
    simp only [upsertInc]
    by_cases h0 : k0 = k
    · rw [if_pos h0, lookupCount_cons, lookupCount_cons]
      by_cases h2 : k0 = k2
      · have : k2 = k := h2 ▸ h0
        simp [h2, this]
      · have : ¬ k2 = k := fun hh => h2 (h0.trans hh.symm)
        simp [h2, this]
    · rw [if_neg h0, lookupCount_cons, lookupCount_cons]
      by_cases h2 : k0 = k2
      · have : ¬ k2 = k := fun hh => h0 (h2.trans hh)
        simp [h2, this]
      · simp [h2, ih]

theorem lookupCount_foldl_upsert (ks : List String) :
    ∀ (m : List (String × Nat)) (k : String),
      lookupCount (ks.foldl upsertInc m) k = lookupCount m k + ks.count k := by
  induction ks with
  | nil => intro m k; simp
  | cons k0 ks ih =>
    intro m k
    simp only [List.foldl_cons]
    rw [ih, lookupCount_upsertInc, List.count_cons]
    by_cases h : k = k0
    · simp [h]
      omega
    · have h2 : ¬ k0 = k := fun hh => h hh.symm
      simp [h, h2, beq_iff_eq]

theorem lookupCount_articles_fold (g : Article → List String) :
    ∀ (arts : List Article) (m : List (String × Nat)) (k : String),
      lookupCount (arts.foldl (fun m a => (g a).foldl upsertInc m) m) k =
        lookupCount m k + (arts.map (fun a => (g a).count k)).sum := by
  intro arts
  induction arts with
  | nil => intro m k; simp
  | cons a rest ih =>
    intro m k
    simp only [List.foldl_cons, List.map_cons, List.sum_cons]
    rw [ih, lookupCount_foldl_upsert]
    omega

theorem keysOf_upsertInc_mem (m : List (String × Nat)) (k : String) :
    ∀ x ∈ keysOf (upsertInc m k), x ∈ keysOf m ∨ x = k := by
  induction m with
  | nil => intro x hx; simp [upsertInc, keysOf] at hx; exact Or.inr hx
  | cons p rest ih =>
    obtain ⟨k0, v⟩ := p
    intro x hx
    simp only [upsertInc] at hx
    by_cases h0 : k0 = k
    · rw [if_pos h0] at hx
      simp only [keysOf, List.map_cons, List.mem_cons] at hx ⊢
      tauto
    · rw [if_neg h0] at hx
      simp only [keysOf, List.map_cons, List.mem_cons] at hx ⊢
      rcases hx with rfl | hx2
      · tauto
      · rcases ih x hx2 with h | h <;> tauto

theorem keysOf_upsertInc_nodup (m : List (String × Nat)) (k : String)
    (h : (keysOf m).Nodup) : (keysOf (upsertInc m k)).Nodup := by
  induction m with
  | nil => simp [upsertInc, keysOf]
  | cons p rest ih =>
    obtain ⟨k0, v⟩ := p
    simp only [keysOf, List.map_cons, List.nodup_cons] at h
    simp only [upsertInc]
    by_cases h0 : k0 = k
    · rw [if_pos h0]
      simp only [keysOf, List.map_cons, List.nodup_cons]
      exact h
    · rw [if_neg h0]
      simp only [keysOf, List.map_cons, List.nodup_cons]
      refine ⟨?_, ih h.2⟩
      intro hmem
      rcases keysOf_upsertInc_mem rest k k0 hmem with hh | hh
      · exact h.1 hh
      · exact h0 hh

theorem keysOf_foldl_upsert_mem (ks : List String) :
    ∀ (m : List (String × Nat)), ∀ x ∈ keysOf (ks.foldl upsertInc m),
      x ∈ keysOf m ∨ x ∈ ks := by
  induction ks with
  | nil => intro m x hx; exact Or.inl hx
  | cons k0 ks ih =>
    intro m x hx
    simp only [List.foldl_cons] at hx
    rcases ih (upsertInc m k0) x hx with h | h
    · rcases keysOf_upsertInc_mem m k0 x h with h2 | h2
      · exact Or.inl h2
      · exact Or.inr (h2 ▸ List.mem_cons_self k0 ks)
    · exact Or.inr (List.mem_cons_of_mem _ h)

theorem keysOf_foldl_upsert_nodup (ks : List String) :
    ∀ (m : List (String × Nat)), (keysOf m).Nodup →
      (keysOf (ks.foldl upsertInc m)).Nodup := by
  induction ks with
  | nil => intro m h; exact h
  | cons k0 ks ih =>
    intro m h
    exact ih (upsertInc m k0) (keysOf_upsertInc_nodup m k0 h)

theorem keysOf_articles_fold_mem (g : Article → List String) :
    ∀ (arts : List Article) (m : List (String × Nat)),
      ∀ x ∈ keysOf (arts.foldl (fun m a => (g a).foldl upsertInc m) m),
        x ∈ keysOf m ∨ ∃ a ∈ arts, x ∈ g a := by
  intro arts
  induction arts with
  | nil => intro m x hx; exact Or.inl hx
  | cons a rest ih =>
    intro m x hx
    simp only [List.foldl_cons] at hx
    rcases ih ((g a).foldl upsertInc m) x hx with h | h
    · rcases keysOf_foldl_upsert_mem (g a) m x h with h2 | h2
      · exact Or.inl h2
      · exact Or.inr ⟨a, List.mem_cons_self a rest, h2⟩
    · rcases h with ⟨b, hb, hxb⟩
      exact Or.inr ⟨b, List.mem_cons_of_mem a hb, hxb⟩

theorem keysOf_articles_fold_nodup (g : Article → List String) :
    ∀ (arts : List Article) (m : List (String × Nat)), (keysOf m).Nodup →
      (keysOf (arts.foldl (fun m a => (g a).foldl upsertInc m) m)).Nodup := by
  intro arts
  induction arts with
  | nil => intro m h; exact h
  | cons a rest ih =>
    intro m h
    exact ih _ (keysOf_foldl_upsert_nodup (g a) m h)

theorem mem_lookupCount (m : List (String × Nat)) (h : (keysOf m).Nodup) :
    ∀ p ∈ m, lookupCount m p.1 = p.2 := by
  induction m with
  | nil => intro p hp; simp at hp
  | cons q rest ih =>
    intro p hp
    simp only [keysOf, List.map_cons, List.nodup_cons] at h
    rcases List.mem_cons.mp hp with rfl | hp2
    · rw [lookupCount_cons, if_pos rfl]
    · rw [lookupCount_cons, if_neg, ih h.2 p hp2]
      intro he
      exact h.1 (he ▸ List.mem_map_of_mem (fun r => r.1) hp2)

theorem count_nodup (l : List String) (h : l.Nodup) (k : String) :
    l.count k = if k ∈ l then 1 else 0 := by
  induction l with
  | nil => simp
  | cons a rest ih =>
    rcases List.nodup_cons.mp h with ⟨ha, hrest⟩
    rw [List.count_cons, ih hrest]
    by_cases hk : k = a
    · subst hk
      simp [ha]
    · have h2 : ¬ a = k := fun hh => hk hh.symm
      simp [hk, h2, beq_iff_eq, List.mem_cons]

theorem totalKeywordCount_eq_articleCountWith (arts : List Article)
    (h : ∀ a ∈ arts, (a.keywords.getD []).Nodup) (k : String) :
    totalKeywordCount arts k = articleCountWith arts k := by
  induction arts with
  | nil => rfl
  | cons a rest ih =>
    have hrest := ih (fun b hb => h b (List.mem_cons_of_mem a hb))
    simp only [totalKeywordCount, List.map_cons, List.sum_cons] at *
    rw [count_nodup _ (h a (List.mem_cons_self a rest)) k]
    simp only [articleCountWith, List.filter_cons] at *
    by_cases hk : k ∈ a.keywords.getD []
    · have : (a.keywords.getD []).contains k = true := List.elem_iff.mpr hk
      simp [hk, this, hrest]
      omega
    · have : ¬ (a.keywords.getD []).contains k = true := fun hh => hk (List.elem_iff.mp hh)
      simp [hk, this, hrest]

theorem getKeywordStats_counts (arts : List Article)
    (h : ∀ a ∈ arts, (a.keywords.getD []).Nodup) :
    ∀ s ∈ getKeywordStats arts, s.count = articleCountWith arts s.keyword := by
  intro s hs
  have hs2 := (List.take_sublist 30 _).subset hs
  have hs3 : s ∈ (keywordCounts arts).map
      (fun p => ({ keyword := p.1, count := p.2 } : KeywordStats)) :=
    (jsSort_perm _ _).subset hs2
  rcases List.mem_map.mp hs3 with ⟨p, hp, rfl⟩
  have hnodup : (keysOf (keywordCounts arts)).Nodup :=
    keysOf_articles_fold_nodup (fun a => a.keywords.getD []) arts [] (by simp [keysOf])
  have h1 := mem_lookupCount (keywordCounts arts) hnodup p hp
  have h2 := lookupCount_articles_fold (fun a => a.keywords.getD []) arts [] p.1
  rw [lookupCount_nil] at h2
  show p.2 = articleCountWith arts p.1
  rw [← h1]
  have h3 : lookupCount (keywordCounts arts) p.1 = totalKeywordCount arts p.1 := by
    unfold keywordCounts totalKeywordCount
    simpa using h2
  rw [h3]
  exact totalKeywordCount_eq_articleCountWith arts h p.1

theorem splitBarAux_no_bar (l : List Char) (h : '|' ∉ l) : splitBarAux l = [l] := by
  induction l with
  | nil => rfl
  | cons c cs ih =>
    simp only [List.mem_cons, not_or] at h
    simp only [splitBarAux]
    rw [if_neg (fun hh => h.1 hh.symm), ih h.2]

theorem splitBarAux_cons (c : Char) (cs : List Char) :
    splitBarAux (c :: cs) =
      if c = '|' then [] :: splitBarAux cs
      else
        match splitBarAux cs with
        | s :: ss => (c :: s) :: ss
        | [] => [[c]] := rfl

theorem splitBarAux_append (x y : List Char) (hx : '|' ∉ x) (hy : '|' ∉ y) :
    splitBarAux (x ++ '|' :: y) = [x, y] := by
  induction x with
  | nil =>
    rw [List.nil_append, splitBarAux_cons, if_pos rfl, splitBarAux_no_bar y hy]
  | cons c cx ih =>
    simp only [List.mem_cons, not_or] at hx
    rw [List.cons_append, splitBarAux_cons, if_neg (fun hh => hx.1 hh.symm), ih hx.2]

theorem splitBar_join (u v : String) (hu : barFree u) (hv : barFree v) :
    splitBar (u ++ "|" ++ v) = [u, v] := by
  unfold splitBar
  have h1 : (u ++ "|" ++ v).toList = u.toList ++ '|' :: v.toList := by
    show (u.toList ++ ['|']) ++ v.toList = u.toList ++ '|' :: v.toList
    simp
  rw [h1, splitBarAux_append u.toList v.toList hu hv]
  rfl

theorem joinKey_inj {a b c d : String} (ha : barFree a) (hb : barFree b) (hc : barFree c)
    (hd : barFree d) (h : a ++ "|" ++ b = c ++ "|" ++ d) : a = c ∧ b = d := by
  have h2 := congrArg splitBar h
  rw [splitBar_join a b ha hb, splitBar_join c d hc hd] at h2
  simpa using h2

theorem listLexLt_asymm : ∀ x y : List Char, listLexLt x y = true → listLexLt y x = false := by
  intro x
  induction x with
  | nil =>
    intro y h
    cases y with
    | nil => simp [listLexLt] at h
    | cons b bs => simp [listLexLt]
  | cons a as ih =>
    intro y h
    cases y with
    | nil => simp [listLexLt] at h
    | cons b bs =>
      simp only [listLexLt] at h ⊢
      by_cases h1 : a < b
      · rw [if_neg (lt_asymm h1), if_pos h1]
      · rw [if_neg h1] at h
        by_cases h2 : b < a
        · rw [if_pos h2] at h
          cases h
        · rw [if_neg h2] at h
          rw [if_neg h2, if_neg h1]
          exact ih bs h

theorem listLexLt_antisymm : ∀ x y : List Char,
    listLexLt x y = false → listLexLt y x = false → x = y := by
  intro x
  induction x with
  | nil =>
    intro y h1 _
    cases y with
    | nil => rfl
    | cons b bs => simp [listLexLt] at h1
  | cons a as ih =>
    intro y h1 h2
    cases y with
    | nil => simp [listLexLt] at h2
    | cons b bs =>
      simp only [listLexLt] at h1 h2
      by_cases hab : a < b
      · rw [if_pos hab] at h1
        cases h1
      · by_cases hba : b < a
        · rw [if_pos hba] at h2
          cases h2
        · have he : a = b := le_antisymm (not_lt.mp hba) (not_lt.mp hab)
          rw [if_neg hab, if_neg hba] at h1
          rw [if_neg hba, if_neg hab] at h2
          rw [he, ih bs h1 h2]

theorem strLt_asymm (a b : String) (h : strLt a b = true) : strLt b a = false :=
  listLexLt_asymm _ _ h

theorem strLt_antisymm (a b : String) (h1 : strLt a b = false) (h2 : strLt b a = false) :
    a = b := by
  have h3 := listLexLt_antisymm a.toList b.toList h1 h2
  obtain ⟨da⟩ := a
  obtain ⟨db⟩ := b
  exact congrArg String.mk h3

theorem joinPairKey_comm (a b : String) : joinPairKey a b = joinPairKey b a := by
  unfold joinPairKey
  by_cases h1 : strLt b a = true
  · rw [if_pos h1, if_neg (by simp [strLt_asymm b a h1])]
  · have h1f : strLt b a = false := Bool.eq_false_iff.mpr h1
    rw [if_neg h1]
    by_cases h2 : strLt a b = true
    · rw [if_pos h2]
    · have h2f : strLt a b = false := Bool.eq_false_iff.mpr h2
      rw [if_neg h2, strLt_antisymm a b h2f h1f]

theorem splitBar_joinPairKey (x y : String) (hx : barFree x) (hy : barFree y) :
    splitBar (joinPairKey x y) = if strLt y x then [y, x] else [x, y] := by
  unfold joinPairKey
  by_cases h : strLt y x = true
  · rw [if_pos h, if_pos h, splitBar_join y x hy hx]
  · rw [if_neg h, if_neg h, splitBar_join x y hx hy]

theorem joinPairKey_eq_iff {x y u v : String} (hx : barFree x) (hy : barFree y)
    (hu : barFree u) (hv : barFree v) (huv : u ≠ v) :
    joinPairKey x y = joinPairKey u v ↔ (x = u ∧ y = v) ∨ (x = v ∧ y = u) := by
  constructor
  · intro h
    unfold joinPairKey at h
    by_cases h1 : strLt y x = true <;> by_cases h2 : strLt v u = true
    · rw [if_pos h1, if_pos h2] at h
      rcases joinKey_inj hy hx hv hu h with ⟨e1, e2⟩
      exact Or.inl ⟨e2, e1⟩
    · rw [if_pos h1, if_neg h2] at h
      rcases joinKey_inj hy hx hu hv h with ⟨e1, e2⟩
      exact Or.inr ⟨e2, e1⟩
    · rw [if_neg h1, if_pos h2] at h
      rcases joinKey_inj hx hy hv hu h with ⟨e1, e2⟩
      exact Or.inr ⟨e1, e2⟩
    · rw [if_neg h1, if_neg h2] at h
      rcases joinKey_inj hx hy hu hv h with ⟨e1, e2⟩
      exact Or.inl ⟨e1, e2⟩
  · intro h
    rcases h with ⟨rfl, rfl⟩ | ⟨rfl, rfl⟩
    · rfl
    · exact joinPairKey_comm x y

theorem pairKeysOf_mem (l : List String) :
    ∀ K ∈ pairKeysOf l,
      ∃ x y, x ∈ l ∧ y ∈ l ∧ K = joinPairKey x y ∧ (l.Nodup → x ≠ y) := by
  induction l with
  | nil => intro K hK; simp [pairKeysOf] at hK
  | cons k rest ih =>
    intro K hK
    rcases List.mem_append.mp hK with h1 | h2
    · rcases List.mem_map.mp h1 with ⟨y, hy, rfl⟩
      refine ⟨k, y, List.mem_cons_self k rest, List.mem_cons_of_mem k hy, rfl, ?_⟩
      intro hnd he
      exact (List.nodup_cons.mp hnd).1 (he ▸ hy)
    · rcases ih K h2 with ⟨x, y, hx, hy, hform, hne⟩
      exact ⟨x, y, List.mem_cons_of_mem k hx, List.mem_cons_of_mem k hy, hform,
        fun hnd => hne (List.nodup_cons.mp hnd).2⟩

theorem pairKeysOf_count (u v : String) (huv : u ≠ v) (hu : barFree u) (hv : barFree v) :
    ∀ (l : List String), l.Nodup → (∀ k ∈ l, barFree k) →
      (pairKeysOf l).count (joinPairKey u v) = if u ∈ l ∧ v ∈ l then 1 else 0 := by
  intro l
  induction l with
  | nil => intro _ _; simp [pairKeysOf]
  | cons k rest ih =>
    intro hnd hbar
    rcases List.nodup_cons.mp hnd with ⟨hk_notin, hnd2⟩
    have hbar2 : ∀ x ∈ rest, barFree x := fun x hx => hbar x (List.mem_cons_of_mem k hx)
    have hbark : barFree k := hbar k (List.mem_cons_self k rest)
    simp only [pairKeysOf, List.count_append]
    rw [ih hnd2 hbar2]
    have hmap : (rest.map (joinPairKey k)).count (joinPairKey u v) =
        if k = u then rest.count v else if k = v then rest.count u else 0 := by
      show List.countP (fun x => x == joinPairKey u v) (rest.map (joinPairKey k)) = _
      rw [List.countP_map]
      by_cases hku : k = u
      · subst hku
        rw [if_pos rfl]
        show _ = List.countP (fun x => x == v) rest
        refine List.countP_congr ?_
        intro z hz
        simp only [Function.comp_apply, beq_iff_eq]
        rw [joinPairKey_eq_iff hbark (hbar2 z hz) hu hv huv]
        constructor
        · rintro (⟨_, e⟩ | ⟨e, _⟩)
          · exact e
          · exact absurd e huv
        · intro e
          exact Or.inl ⟨rfl, e⟩
      · by_cases hkv : k = v
        · subst hkv
          rw [if_neg hku, if_pos rfl]
          show _ = List.countP (fun x => x == u) rest
          refine List.countP_congr ?_
          intro z hz
          simp only [Function.comp_apply, beq_iff_eq]
          rw [joinPairKey_eq_iff hbark (hbar2 z hz) hu hv huv]
          constructor
          · rintro (⟨e, _⟩ | ⟨_, e⟩)
            · exact absurd e hku
            · exact e
          · intro e
            exact Or.inr ⟨rfl, e⟩
        · rw [if_neg hku, if_neg hkv]
          refine List.countP_eq_zero.mpr ?_
          intro z hz
          simp only [Function.comp_apply, beq_iff_eq]
          rw [joinPairKey_eq_iff hbark (hbar2 z hz) hu hv huv]
          rintro (⟨e, _⟩ | ⟨e, _⟩)
          · exact hku e
          · exact hkv e
    rw [hmap]
    by_cases hku : k = u
    · subst hku
      rw [if_pos rfl, count_nodup rest hnd2 v]
      have hvk : ¬ v = k := fun e => huv e.symm
      by_cases hvr : v ∈ rest
      · simp [hvr, hk_notin, List.mem_cons]
      · simp [hvr, hk_notin, List.mem_cons, hvk]
    · rw [if_neg hku]
      by_cases hkv : k = v
      · subst hkv
        rw [if_pos rfl, count_nodup rest hnd2 u]
        have huk : ¬ u = k := huv
        by_cases hur : u ∈ rest
        · simp [hur, hk_notin, List.mem_cons, huk]
        · simp [hur, hk_notin, List.mem_cons, huk]
      · rw [if_neg hkv]
        have h1 : ¬ u = k := fun e => hku e.symm
        have h2 : ¬ v = k := fun e => hkv e.symm
        simp [List.mem_cons, h1, h2]

theorem keywordPairCounts_entry (arts : List Article) :
    ∀ p ∈ keywordPairCounts arts, p.2 = totalPairCount arts p.1 := by
  intro p hp
  have hnodup : (keysOf (keywordPairCounts arts)).Nodup :=
    keysOf_articles_fold_nodup (fun a => pairKeysOf (a.keywords.getD [])) arts []
      (by simp [keysOf])
  have h1 := mem_lookupCount _ hnodup p hp
  have h2 := lookupCount_articles_fold (fun a => pairKeysOf (a.keywords.getD [])) arts [] p.1
  rw [lookupCount_nil] at h2
  rw [← h1]
  show lookupCount (keywordPairCounts arts) p.1 = totalPairCount arts p.1
  unfold keywordPairCounts totalPairCount
  simpa using h2

theorem keywordPairCounts_key_shape (arts : List Article)
    (hnd : ∀ a ∈ arts, (a.keywords.getD []).Nodup)
    (hbar : ∀ a ∈ arts, ∀ k ∈ a.keywords.getD [], barFree k) :
    ∀ p ∈ keywordPairCounts arts,
      ∃ x y, barFree x ∧ barFree y ∧ x ≠ y ∧ p.1 = joinPairKey x y := by
  intro p hp
  have hkey : p.1 ∈ keysOf (keywordPairCounts arts) :=
    List.mem_map_of_mem (fun r => r.1) hp
  rcases keysOf_articles_fold_mem (fun a => pairKeysOf (a.keywords.getD [])) arts [] p.1 hkey
    with h0 | ⟨a, ha, hpa⟩
  · simp [keysOf] at h0
  · rcases pairKeysOf_mem _ p.1 hpa with ⟨x, y, hx, hy, hform, hne⟩
    exact ⟨x, y, hbar a ha x hx, hbar a ha y hy, hne (hnd a ha), hform⟩

theorem totalPairCount_eq_cooccurrence (arts : List Article)
    (hnd : ∀ a ∈ arts, (a.keywords.getD []).Nodup)
    (hbar : ∀ a ∈ arts, ∀ k ∈ a.keywords.getD [], barFree k)
    (u v : String) (huv : u ≠ v) (hu : barFree u) (hv : barFree v) :
    totalPairCount arts (joinPairKey u v) = cooccurrenceCount arts u v := by
  induction arts with
  | nil => rfl
  | cons a rest ih =>
    have hrest := ih (fun b hb => hnd b (List.mem_cons_of_mem a hb))
      (fun b hb => hbar b (List.mem_cons_of_mem a hb))
    simp only [totalPairCount, List.map_cons, List.sum_cons] at hrest ⊢
    rw [pairKeysOf_count u v huv hu hv _ (hnd a (List.mem_cons_self a rest))
      (hbar a (List.mem_cons_self a rest))]
    simp only [cooccurrenceCount, List.filter_cons] at hrest ⊢
    by_cases hu2 : u ∈ a.keywords.getD [] <;> by_cases hv2 : v ∈ a.keywords.getD []
    · have c1 : (a.keywords.getD []).contains u = true := List.elem_iff.mpr hu2
      have c2 : (a.keywords.getD []).contains v = true := List.elem_iff.mpr hv2
      simp [hu2, hv2, c1, c2, hrest]
      omega
    · have c2 : (a.keywords.getD []).contains v = false :=
        Bool.eq_false_iff.mpr (fun hh => hv2 (List.elem_iff.mp hh))
      simp [hu2, hv2, c2, hrest]
    · have c1 : (a.keywords.getD []).contains u = false :=
        Bool.eq_false_iff.mpr (fun hh => hu2 (List.elem_iff.mp hh))
      simp [hu2, hv2, c1, hrest]
    · have c1 : (a.keywords.getD []).contains u = false :=
        Bool.eq_false_iff.mpr (fun hh => hu2 (List.elem_iff.mp hh))
      simp [hu2, hv2, c1, hrest]

theorem edges_foldl_eq (topSet : List String) :
    ∀ (l : List (String × Nat)) (init : List NetworkEdge),
      l.foldl (fun es p =>
        if topSet.contains ((splitBar p.1).headD "") &&
           topSet.contains (((splitBar p.1).get? 1).getD "") then
          es ++ [{ fromNode := (splitBar p.1).headD "",
                   toNode := ((splitBar p.1).get? 1).getD "", value := p.2 }]
        else es) init =
      init ++ (l.filter (fun p =>
        topSet.contains ((splitBar p.1).headD "") &&
        topSet.contains (((splitBar p.1).get? 1).getD ""))).map
        (fun p => { fromNode := (splitBar p.1).headD "",
                    toNode := ((splitBar p.1).get? 1).getD "", value := p.2 }) := by
  intro l
  induction l with
  | nil => intro init; simp
  | cons p rest ih =>
    intro init
    simp only [List.foldl_cons, List.filter_cons]
    by_cases h : (topSet.contains ((splitBar p.1).headD "") &&
        topSet.contains (((splitBar p.1).get? 1).getD "")) = true
    · rw [if_pos h, ih, if_pos h]
      simp
    · have hf := Bool.eq_false_iff.mpr h
      rw [if_neg h, ih, if_neg h]

/-- C8: `keywordNetwork()` returns at most 15 nodes, each node's value being twice
its keyword's distinct-article count, and at most 20 edges, each edge's value
being the co-occurrence count of its two endpoint keywords, retained only when
that count exceeds 1 and both endpoints are among the returned nodes.  The
hypotheses state that stored keyword lists are duplicate-free and contain no `|`
(true of every list the pipeline produces: `extractKeywords` output and the
sample articles). -/
theorem getKeywordNetwork_shape (articles : List Article)
    (hnd : ∀ a ∈ articles, (a.keywords.getD []).Nodup)
    (hbar : ∀ a ∈ articles, ∀ k ∈ a.keywords.getD [], barFree k) :
    (getKeywordNetwork articles).1.length ≤ 15 ∧
    (getKeywordNetwork articles).2.length ≤ 20 ∧
    (∀ n ∈ (getKeywordNetwork articles).1,
      n.value = articleCountWith articles n.id * 2) ∧
    (∀ e ∈ (getKeywordNetwork articles).2,
      e.fromNode ∈ (getKeywordNetwork articles).1.map NetworkNode.id ∧
      e.toNode ∈ (getKeywordNetwork articles).1.map NetworkNode.id ∧
      1 < e.value ∧ e.value = cooccurrenceCount articles e.fromNode e.toNode) := by
  have hnodes : (getKeywordNetwork articles).1 =
      ((getKeywordStats articles).take 15).map
        (fun stat => NetworkNode.mk stat.keyword stat.keyword (stat.count * 2)) := rfl
  have hedges : (getKeywordNetwork articles).2 =
      ((((keywordPairCounts articles).filter (fun p => 1 < p.2)).take 20).filter
        (fun p =>
          (((getKeywordStats articles).take 15).map (fun k => k.keyword)).contains
            ((splitBar p.1).headD "") &&
          (((getKeywordStats articles).take 15).map (fun k => k.keyword)).contains
            (((splitBar p.1).get? 1).getD ""))).map
        (fun p => NetworkEdge.mk ((splitBar p.1).headD "")
          (((splitBar p.1).get? 1).getD "") p.2) := by
    show (((keywordPairCounts articles).filter (fun p => 1 < p.2)).take 20).foldl _ [] = _
    rw [edges_foldl_eq]
    simp
  have hids : (getKeywordNetwork articles).1.map NetworkNode.id =
      ((getKeywordStats articles).take 15).map (fun k => k.keyword) := by
    rw [hnodes, List.map_map]
    rfl
  refine ⟨?_, ?_, ?_, ?_⟩
  · rw [hnodes]
    simp only [List.length_map]
    exact List.length_take_le 15 _
  · rw [hedges]
    simp only [List.length_map]
    exact (List.length_filter_le _ _).trans (List.length_take_le 20 _)
  · intro n hn
    rw [hnodes] at hn
    rcases List.mem_map.mp hn with ⟨stat, hstat, rfl⟩
    have hc := getKeywordStats_counts articles hnd stat ((List.take_sublist 15 _).subset hstat)
    show stat.count * 2 = articleCountWith articles stat.keyword * 2
    rw [hc]
  · intro e he
    rw [hedges] at he
    rcases List.mem_map.mp he with ⟨p, hp, rfl⟩
    rcases List.mem_filter.mp hp with ⟨hp2, hcond⟩
    have hp3 : p ∈ (keywordPairCounts articles).filter (fun p => 1 < p.2) :=
      (List.take_sublist 20 _).subset hp2
    rcases List.mem_filter.mp hp3 with ⟨hp4, hval⟩
    have hval2 : 1 < p.2 := by simpa using hval
    rcases (Bool.and_eq_true _ _).mp hcond with ⟨hcf, hct⟩
    rcases keywordPairCounts_key_shape articles hnd hbar p hp4 with ⟨x, y, hbx, hby, hxy, hform⟩
    have hv1 : p.2 = totalPairCount articles p.1 := keywordPairCounts_entry articles p hp4
    refine ⟨?_, ?_, hval2, ?_⟩
    · rw [hids]
      exact List.elem_iff.mp hcf
    · rw [hids]
      exact List.elem_iff.mp hct
    · show p.2 = cooccurrenceCount articles ((splitBar p.1).headD "")
        (((splitBar p.1).get? 1).getD "")
      have hsplit := splitBar_joinPairKey x y hbx hby
      by_cases hlt : strLt y x = true
      · rw [if_pos hlt] at hsplit
        rw [hform, hsplit]
        show p.2 = cooccurrenceCount articles y x
        rw [hv1, hform, joinPairKey_comm x y]
        exact totalPairCount_eq_cooccurrence articles hnd hbar y x (Ne.symm hxy) hby hbx
      · rw [if_neg hlt] at hsplit
        rw [hform, hsplit]
        show p.2 = cooccurrenceCount articles x y
        rw [hv1, hform]
        exact totalPairCount_eq_cooccurrence articles hnd hbar x y hxy hbx hby

/-- Witness for C8: a concrete three-article store (two articles sharing the pair
AI/GPU) satisfies the hypotheses, and the conclusions follow by the theorem. -/
theorem getKeywordNetwork_shape_witness :
    (∀ a ∈ [wArticleA, wArticleB, wArticleC], (a.keywords.getD []).Nodup) ∧
    (∀ a ∈ [wArticleA, wArticleB, wArticleC], ∀ k ∈ a.keywords.getD [], barFree k) ∧
    ((getKeywordNetwork [wArticleA, wArticleB, wArticleC]).1.length ≤ 15 ∧
     (getKeywordNetwork [wArticleA, wArticleB, wArticleC]).2.length ≤ 20 ∧
     (∀ n ∈ (getKeywordNetwork [wArticleA, wArticleB, wArticleC]).1,
       n.value = articleCountWith [wArticleA, wArticleB, wArticleC] n.id * 2) ∧
     (∀ e ∈ (getKeywordNetwork [wArticleA, wArticleB, wArticleC]).2,
       e.fromNode ∈ (getKeywordNetwork [wArticleA, wArticleB, wArticleC]).1.map NetworkNode.id ∧
       e.toNode ∈ (getKeywordNetwork [wArticleA, wArticleB, wArticleC]).1.map NetworkNode.id ∧
       1 < e.value ∧
       e.value = cooccurrenceCount [wArticleA, wArticleB, wArticleC] e.fromNode e.toNode)) :=
  ⟨by decide, by decide,
    getKeywordNetwork_shape [wArticleA, wArticleB, wArticleC] (by decide) (by decide)⟩

end News
